import Mathlib

/-!
# Verification of the ETE tree core (`ete_dev/coretype/tree.py`)

A shallow embedding of the tree data structure and its structural algorithms
from `src/ete_dev/coretype/tree.py`, together with theorems settling the
frozen claims about the natural-language specification.

Two complementary models are used:

* `PTree` — an inductive rose tree (node id, name, branch length `dist`,
  branch `support`, ordered children).  This models a well-formed tree value
  and is used for the traversal, prune, distance / common-ancestor and
  ultrametric algorithms.  Python's node *identity* is modelled by the `id`
  field; well-formedness (`WF`, all ids distinct) corresponds to the fact
  that distinct Python objects are distinct identities.  The `.up` pointer
  of the source is modelled by `parentOf` (the source maintains the
  invariant that `c.up = p` iff `c ∈ p.children`, spec §3 invariant 2).

* `Forest` — a pointer-level model (a map from node id to a record holding
  the `up` pointer, the ordered `children` id list, `dist`, `support` and
  `name`).  This is used for the operations whose behaviour is genuinely
  about pointer surgery and possibly ill-formed states: `add_child` (which
  performs no cycle check), `delete` on a parentless node, and
  `set_outgroup`'s edge-reversal surgery.

Numeric branch lengths and supports are modelled with exact rationals `ℚ`;
the Python source uses IEEE floats, whose rounding is outside the scope of
the structural claims treated here.

Python exceptions are modelled with `Except String`; a Python function that
cannot raise on the modelled path returns a plain value or `Option`.
-/

namespace EteTree

/-- A tree node: identity, `name` feature, branch length `dist`, branch
`support`, and the ordered list of children.  Mirrors the structural fields
of `TreeNode.__init__` (`_children`, `_up` is derived, `_dist`, `_support`,
`name`). -/
inductive PTree where
  | node (id : Nat) (name : String) (dist : ℚ) (support : ℚ) (children : List PTree)

namespace PTree

/-- The node's identity (models Python object identity). -/
def id : PTree → Nat
  | .node i _ _ _ _ => i

/-- The node's `name` feature. -/
def name : PTree → String
  | .node _ n _ _ _ => n

/-- Branch length to the parent (`TreeNode.dist`). -/
def dist : PTree → ℚ
  | .node _ _ d _ _ => d

/-- Branch support (`TreeNode.support`). -/
def support : PTree → ℚ
  | .node _ _ _ s _ => s

/-- The ordered list of children (`TreeNode.children`). -/
def children : PTree → List PTree
  | .node _ _ _ _ cs => cs

@[simp] theorem id_node (i n d s cs) : (PTree.node i n d s cs).id = i := rfl
@[simp] theorem name_node (i n d s cs) : (PTree.node i n d s cs).name = n := rfl
@[simp] theorem dist_node (i n d s cs) : (PTree.node i n d s cs).dist = d := rfl
@[simp] theorem support_node (i n d s cs) : (PTree.node i n d s cs).support = s := rfl
@[simp] theorem children_node (i n d s cs) : (PTree.node i n d s cs).children = cs := rfl

mutual
/-- Number of nodes in the tree (used as loop fuel where the Python code
relies on finiteness of the tree). -/
def sizeT : PTree → Nat
  | .node _ _ _ _ cs => 1 + sizeL cs
def sizeL : List PTree → Nat
  | [] => 0
  | t :: ts => sizeT t + sizeL ts
end

mutual
/-- All node ids of the tree, in preorder. -/
def allIds : PTree → List Nat
  | .node i _ _ _ cs => i :: allIdsL cs
def allIdsL : List PTree → List Nat
  | [] => []
  | t :: ts => allIds t ++ allIdsL ts
end

/-- The ids of the direct children. -/
def childIds (t : PTree) : List Nat := t.children.map id

/-- Structural induction principle for `PTree` giving the hypothesis for
every member of the child list. -/
theorem ind (P : PTree → Prop)
    (h : ∀ i n d s cs, (∀ c ∈ cs, P c) → P (.node i n d s cs)) : ∀ t, P t := by
  intro t
  induction t using PTree.rec (motive_2 := fun l => ∀ c ∈ l, P c) with
  | node i n d s cs ih => exact h i n d s cs ih
  | nil =>
    rename_i c hc
    exact absurd hc (List.not_mem_nil c)
  | cons head tail ih1 ih2 =>
    rename_i c hc
    rcases List.mem_cons.mp hc with h' | h'
    · exact h' ▸ ih1
    · exact ih2 c h'

end PTree

/-! ## Traversal engine

`TreeNode.traverse` dispatches on the strategy string and returns the
corresponding iterator, or `None` (here `none`) when the strategy is not
one of the three recognized tags (`traverse`, tree.py lines 461-478). -/

namespace PTree

/-- Models CPython's `deque.popleft` *called with one argument*, as in
`node = to_visit.popleft(0)` (tree.py line 457): `popleft` takes no
arguments, so the call raises `TypeError` unconditionally. -/
def popleftWithArg (d : List PTree) : Except String (PTree × List PTree) :=
  .error "TypeError: popleft() takes no arguments (1 given)"

/-- The body of `_iter_descendants_preorder` (tree.py lines 444-459): while
the current node is not `None`, yield it, `extendleft` its children onto the
work deque (which reverses their order), then try `to_visit.popleft(0)`;
the bare `except:` turns the `TypeError` into `node = None`, ending the
loop.  Fuel bounds the loop (the tree is finite). -/
def preorderLoop : Nat → PTree → List PTree → List PTree
  | 0, _, _ => []
  | fuel + 1, cur, toVisit =>
    let toVisit' := cur.children.reverse ++ toVisit
    match popleftWithArg toVisit' with
    | .ok (n, rest) => cur :: preorderLoop fuel n rest
    | .error _ => [cur]

/-- `_iter_descendants_preorder`: starts with the node itself and an empty
deque. -/
def preorderTrav (t : PTree) : List PTree := preorderLoop (sizeT t) t []

/-- Breadth-first loop of `_iter_descendants_levelorder` (tree.py lines
433-442): pop from the left, yield, extend on the right with the
children. -/
def levelorderLoop : Nat → List PTree → List PTree
  | 0, _ => []
  | _ + 1, [] => []
  | fuel + 1, n :: rest => n :: levelorderLoop fuel (rest ++ n.children)

/-- `_iter_descendants_levelorder`. -/
def levelorderTrav (t : PTree) : List PTree := levelorderLoop (sizeT t) [t]

mutual
/-- `_iter_descendants_postorder` (tree.py lines 414-431), modelled by its
effective yield order on a tree: every child subtree left to right in
postorder, then the node itself.  (The source realizes this order with an
iterative climb over the `up` pointers and a visited set.) -/
def postorderTrav : PTree → List PTree
  | .node i n d s cs => postorderL cs ++ [.node i n d s cs]
def postorderL : List PTree → List PTree
  | [] => []
  | t :: ts => postorderTrav t ++ postorderL ts
end

/-- `TreeNode.traverse(strategy)` (tree.py lines 461-478): dispatch on the
strategy tag; the `if/elif` chain has no `else`, so an unrecognized tag
falls through and the function returns `None`. -/
def traverse (t : PTree) (strategy : String) : Option (List PTree) :=
  if strategy = "preorder" then some (preorderTrav t)
  else if strategy = "levelorder" then some (levelorderTrav t)
  else if strategy = "postorder" then some (postorderTrav t)
  else none

end PTree

/-- A two-node tree: root id 0 with a single leaf child id 1.  The failing
input for claim C1. -/
def twoNode : PTree := .node 0 "r" 1 1 [.node 1 "A" 1 1 []]

/-- C1: the traversal-completeness claim demands that `traverse` with
strategy `preorder` yield every node reachable from the root exactly once.
The code violates this: `_iter_descendants_preorder` executes
`to_visit.popleft(0)`, but `deque.popleft` takes no arguments, so every
call raises `TypeError`, which the bare `except:` silently converts into
loop termination.  On the two-node tree the preorder traversal therefore
yields only the root and never visits node 1, although node 1 is reachable
(its id occurs in the tree).  The commented-out original code
`node = to_visit.pop(0)` shows the intended behaviour, so this is a slip in
the code rather than a spec error. -/
theorem c1_preorder_misses_nodes :
    (PTree.preorderTrav twoNode).map PTree.id = [0] ∧
    PTree.allIds twoNode = [0, 1] ∧
    1 ∉ (PTree.preorderTrav twoNode).map PTree.id := by
  have h : (PTree.preorderTrav twoNode).map PTree.id = [0] := by
    simp [PTree.preorderTrav, PTree.preorderLoop, PTree.popleftWithArg, twoNode,
      PTree.sizeT, PTree.sizeL, PTree.id]
  refine ⟨h, ?_, by simp [h]⟩
  simp [twoNode, PTree.allIds, PTree.allIdsL]

/-- C10: for every node and every strategy string outside
{preorder, postorder, levelorder}, `traverse` returns `None`: the
`if/elif` chain of `traverse` has no `else` branch, so nothing is yielded
and no error is raised; a caller only fails later when iterating the
`None` result. -/
theorem c10_traverse_unknown_strategy_none (t : PTree) (strategy : String)
    (h1 : strategy ≠ "preorder") (h2 : strategy ≠ "levelorder")
    (h3 : strategy ≠ "postorder") :
    t.traverse strategy = none := by
  simp [PTree.traverse, h1, h2, h3]

/-- Witness for C10 at the concrete strategy string `inorder` on the
two-node tree. -/
theorem c10_witness : PTree.traverse twoNode "inorder" = none :=
  c10_traverse_unknown_strategy_none twoNode "inorder"
    (by decide) (by decide) (by decide)

/-! ## Pointer-level model (`Forest`)

`TreeNode` objects are connected by a parent pointer `up` and an ordered
child list `children`.  `Forest` models the whole object graph: a total map
from node id to the node's record.  Ids not yet used map to a default
fresh standalone node (as produced by `TreeNode.__init__`: no parent, no
children, `dist = 1.0`, `support = 1.0`, name `NoName`).  `next` is the
next unused id, used when an operation allocates a new node. -/

/-- The structural fields of one `TreeNode` object. -/
structure FNode where
  up : Option Nat
  kids : List Nat
  dist : ℚ
  support : ℚ
  name : String
deriving DecidableEq

/-- A standalone node as built by `TreeNode.__init__`. -/
def FNode.fresh : FNode :=
  { up := none, kids := [], dist := 1, support := 1, name := "NoName" }

/-- The object graph: node records indexed by id, plus the next fresh id. -/
structure Forest where
  f : Nat → FNode
  next : Nat

namespace Forest

/-- Update the record of one node. -/
def setNode (s : Forest) (x : Nat) (nd : FNode) : Forest :=
  { s with f := fun y => if y = x then nd else s.f y }

def setUp (s : Forest) (x : Nat) (u : Option Nat) : Forest :=
  s.setNode x { s.f x with up := u }

def setKids (s : Forest) (x : Nat) (ks : List Nat) : Forest :=
  s.setNode x { s.f x with kids := ks }

def setDist (s : Forest) (x : Nat) (d : ℚ) : Forest :=
  s.setNode x { s.f x with dist := d }

def setSupport (s : Forest) (x : Nat) (v : ℚ) : Forest :=
  s.setNode x { s.f x with support := v }

@[simp] theorem f_setNode_same (s : Forest) (x : Nat) (nd : FNode) :
    (s.setNode x nd).f x = nd := by simp [setNode]

theorem f_setNode_other (s : Forest) (x y : Nat) (nd : FNode) (h : y ≠ x) :
    (s.setNode x nd).f y = s.f y := by simp [setNode, h]

@[simp] theorem next_setNode (s : Forest) (x : Nat) (nd : FNode) :
    (s.setNode x nd).next = s.next := rfl

/-- `TreeNode.add_child(child)` with an explicitly supplied child and no
`name`/`dist`/`support` overrides (tree.py lines 215-257): append the child
to this node's child list and point the child's `up` at this node.  The
source's cycle check is commented out ("it would take too much time to
check it every time a node is created"), so no validation happens. -/
def addChild (s : Forest) (parent child : Nat) : Forest :=
  let s1 := s.setKids parent ((s.f parent).kids ++ [child])
  s1.setUp child (some parent)

/-- One step up the parent pointers: `a.up` is `b`. -/
def upStep (s : Forest) (a b : Nat) : Prop := (s.f a).up = some b

/-- The acyclicity invariant of spec §3: no node is reachable from itself
by following parent links (one or more steps). -/
def Acyclic (s : Forest) : Prop := ∀ x, ¬ Relation.TransGen s.upStep x x

/-- The inner body of `TreeNode.delete` (tree.py lines 301-336) without the
single-child collapse: re-parent every child onto the former parent
(`parent.add_child(ch)` appends at the end of the parent's list), then
`parent.remove_child(self)`.  Returns the state unchanged when the node has
no parent (`if parent:` fails). -/
def deleteCore (s : Forest) (x : Nat) : Forest :=
  match (s.f x).up with
  | none => s
  | some parent =>
    -- for ch in self.children: parent.add_child(ch)
    let s1 := ((s.f x).kids).foldl (fun acc ch => acc.addChild parent ch) s
    -- parent.remove_child(self): remove from list, clear child's up pointer
    let s2 := s1.setKids parent (((s1.f parent).kids).erase x)
    s2.setUp x none

/-- `TreeNode.delete(prevent_nondicotomic)`: after the re-parenting, if the
former parent is left with fewer than two children, recursively delete the
parent with `prevent_nondicotomic=False` (which cannot recurse again). -/
def delete (s : Forest) (x : Nat) (preventNondicotomic : Bool) : Forest :=
  match (s.f x).up with
  | none => s
  | some parent =>
    let s' := s.deleteCore x
    if preventNondicotomic ∧ ((s'.f parent).kids).length < 2 then
      s'.deleteCore parent
    else s'

end Forest

/-! ### C7 — deleting a parentless node -/

/-- A forest holding a two-node tree: node 0 is a root whose child list is
`[1]`, node 1 points up at 0. -/
def rootWithChild : Forest :=
  { f := fun y =>
      if y = 0 then { FNode.fresh with kids := [1] }
      else if y = 1 then { FNode.fresh with up := some 0 }
      else FNode.fresh,
    next := 2 }

/-- C7 counterexample: the claim says that after `delete` on a parentless
node "the reference to n held by the caller refers to a childless node".
In the code, `delete` on a node with `up is None` does nothing at all
(`if parent:` fails and the collapse guard also requires `parent`): node 0
keeps its child list `[1]`, which is not empty.  -/
theorem c7_delete_root_keeps_children :
    ((rootWithChild.delete 0 true).f 0).kids = [1] ∧ [1] ≠ ([] : List Nat) := by
  constructor
  · simp [Forest.delete, rootWithChild, FNode.fresh]
  · simp

/-- C7 amended: for every node `n` with no parent, `delete(n)` is a
complete no-op — the whole object graph, including `n`'s own child list
and all of its children's subtrees, is exactly as before the call. -/
theorem c7_delete_rootless_noop (s : Forest) (x : Nat) (prevent : Bool)
    (h : (s.f x).up = none) : s.delete x prevent = s := by
  simp [Forest.delete, h]

/-- Witness for C7 amended at a concrete input: node 1 of `rootWithChild`
detached first — instead use a standalone fresh forest where node 5 has no
parent. -/
theorem c7_witness :
    (rootWithChild.f 0).up = none ∧ rootWithChild.delete 0 false = rootWithChild :=
  ⟨rfl, c7_delete_rootless_noop rootWithChild 0 false rfl⟩

/-! ### C2 — acyclicity under public operations -/

/-- The empty object graph: every id is a standalone fresh node. -/
def blankForest : Forest := { f := fun _ => FNode.fresh, next := 0 }

/-- The state after the public-operation sequence
`a = Tree(); b = Tree(); a.add_child(b); b.add_child(a)` with `a` having
id 0 and `b` id 1. -/
def cyclicForest : Forest := (blankForest.addChild 0 1).addChild 1 0

/-- C2 counterexample: `add_child` performs no cycle check (the check in
the source is commented out), so the public-operation sequence of
`cyclicForest` produces a state in which node 0 is reachable from itself
by following parent links: 0 → 1 → 0.  This falsifies the claim that after
`add_child(p, c)` the child is never an ancestor of itself. -/
theorem c2_cycle_from_public_ops : Relation.TransGen cyclicForest.upStep 0 0 := by
  have h01 : cyclicForest.upStep 0 1 := by
    simp [cyclicForest, blankForest, Forest.upStep, Forest.addChild,
      Forest.setKids, Forest.setUp, Forest.setNode]
  have h10 : cyclicForest.upStep 1 0 := by
    simp [cyclicForest, blankForest, Forest.upStep, Forest.addChild,
      Forest.setKids, Forest.setUp, Forest.setNode]
  exact Relation.TransGen.head h01 (Relation.TransGen.single h10)

/-- How one parent-link step reads after `add_child(p, c)`: only node `c`'s
parent pointer changed (to `p`); every other node steps as before. -/
theorem upStep_addChild (s : Forest) (p c a b : Nat) :
    (s.addChild p c).upStep a b ↔ (if a = c then b = p else s.upStep a b) := by
  unfold Forest.upStep Forest.addChild Forest.setUp Forest.setKids Forest.setNode
  by_cases hac : a = c
  · simp only [hac, if_pos rfl]
    simp [eq_comm]
  · simp only [if_neg hac]
    by_cases hap : a = p
    · simp [hap]
    · simp [hap]

/-- Decomposition of parent-link reachability after `add_child`: a path in
the updated graph either avoids the re-pointed node `c` entirely (and is a
path of the old graph), or passes through `c` and continues from `p`. -/
theorem reach_addChild_decomp (s : Forest) (p c x y : Nat)
    (h : Relation.ReflTransGen (s.addChild p c).upStep x y) :
    Relation.ReflTransGen s.upStep x y ∨
      (Relation.ReflTransGen s.upStep x c ∧
        Relation.ReflTransGen (s.addChild p c).upStep p y) := by
  induction h using Relation.ReflTransGen.head_induction_on with
  | refl => exact Or.inl Relation.ReflTransGen.refl
  | head hstep htail ih =>
    rename_i a b
    by_cases hac : a = c
    · have hbp : b = p := by
        have := (upStep_addChild s p c a b).mp hstep
        simpa [hac] using this
      refine Or.inr ⟨?_, hbp ▸ htail⟩
      exact hac ▸ Relation.ReflTransGen.refl
    · have hstep' : s.upStep a b := by
        have := (upStep_addChild s p c a b).mp hstep
        simpa [hac] using this
      rcases ih with h' | ⟨h1, h2⟩
      · exact Or.inl (Relation.ReflTransGen.head hstep' h')
      · exact Or.inr ⟨Relation.ReflTransGen.head hstep' h1, h2⟩

/-- C2 amended: `add_child` performs no cycle check, so acyclicity is
preserved only under the precondition that the attached child is not
already an ancestor-or-self of the new parent; under that precondition
every parent-link cycle is impossible after `add_child(p, c)`.  (The
counterexample `c2_cycle_from_public_ops` shows the precondition is
necessary: attaching an ancestor creates a cycle.) -/
theorem c2_addChild_preserves_acyclic (s : Forest) (p c : Nat)
    (hA : s.Acyclic) (hnr : ¬ Relation.ReflTransGen s.upStep p c) :
    (s.addChild p c).Acyclic := by
  intro x hx
  obtain ⟨z, hstep, htail⟩ := (Relation.TransGen.head'_iff).mp hx
  by_cases hxc : x = c
  · subst hxc
    have hzp : z = p := by
      have := (upStep_addChild s p x x z).mp hstep
      simpa using this
    rcases reach_addChild_decomp s p x z x htail with h' | ⟨h1, _⟩
    · exact hnr (hzp ▸ h')
    · exact hnr (hzp ▸ h1)
  · have hstep' : s.upStep x z := by
      have := (upStep_addChild s p c x z).mp hstep
      simpa [hxc] using this
    rcases reach_addChild_decomp s p c z x htail with h' | ⟨hzc, hpx⟩
    · exact hA x (Relation.TransGen.head' hstep' h')
    · rcases reach_addChild_decomp s p c p x hpx with hpx' | ⟨hpc, _⟩
      · exact hnr (Relation.ReflTransGen.trans (hpx'.tail hstep') hzc)
      · exact hnr hpc

/-- No parent links exist in the blank forest. -/
theorem blankForest_no_upStep (x y : Nat) : ¬ blankForest.upStep x y := by
  simp [Forest.upStep, blankForest, FNode.fresh]

/-- The blank forest is acyclic. -/
theorem blankForest_acyclic : blankForest.Acyclic := by
  intro x hx
  obtain ⟨z, hstep, _⟩ := (Relation.TransGen.head'_iff).mp hx
  exact blankForest_no_upStep x z hstep

/-- Node 1 is not an ancestor-or-self of node 0 in the blank forest. -/
theorem blankForest_not_reach : ¬ Relation.ReflTransGen blankForest.upStep 0 1 := by
  intro h
  rcases Relation.ReflTransGen.cases_head h with h' | ⟨z, hstep, _⟩
  · exact absurd h' (by decide)
  · exact blankForest_no_upStep 0 z hstep

/-- Witness for C2 amended: attaching standalone node 1 under standalone
node 0 satisfies the precondition and yields an acyclic graph. -/
theorem c2_witness :
    blankForest.Acyclic ∧ ¬ Relation.ReflTransGen blankForest.upStep 0 1 ∧
      (blankForest.addChild 0 1).Acyclic :=
  ⟨blankForest_acyclic, blankForest_not_reach,
    c2_addChild_preserves_acyclic blankForest 0 1 blankForest_acyclic
      blankForest_not_reach⟩

/-! ## Rerooting engine: `set_outgroup` (tree.py lines 875-957) -/

namespace Forest

/-- The climb `n = outgroup; while n.up is not self: n = n.up` (tree.py
lines 893-895) locating the child of `root` on the path to the outgroup.
If the climb runs off the top of the tree (`up` is `None`), Python next
evaluates `None.up` and dies with `AttributeError`; fuel models the
finiteness the source relies on. -/
def climbToChildOf (s : Forest) (root : Nat) : Nat → Nat → Except String Nat
  | 0, _ => .error "RuntimeError: maximum recursion depth exceeded"
  | fuel + 1, n =>
    match (s.f n).up with
    | none => .error "AttributeError: NoneType object has no attribute up"
    | some m => if m = root then .ok n else climbToChildOf s root fuel m

/-- The parent-child swapping loop of `set_outgroup` (tree.py lines
916-936).  State: the current forest, `quien_va_ser_padre`,
`quien_va_ser_hijo` (`None` possible: Python would then crash dereferencing
it, modelled as an error), `quien_fue_padre`, and the rotating one-edge
buffer of (dist, support).  Returns the final forest, the last
`quien_va_ser_padre`, the final `quien_fue_padre` and the final buffered
dist. -/
def rotLoop (root : Nat) :
    Nat → Forest → Nat → Option Nat → Option Nat → ℚ → ℚ →
      Except String (Forest × Nat × Option Nat × ℚ)
  | 0, _, _, _, _, _, _ => .error "RuntimeError: maximum recursion depth exceeded"
  | fuel + 1, s, qvsp, qvshOpt, qfp, bufD, bufS =>
    match qvshOpt with
    | none => .error "AttributeError: NoneType object has no attribute children"
    | some qvsh =>
      if qvsh = root then .ok (s, qvsp, qfp, bufD)
      else
        -- quien_va_ser_padre.children.append(quien_va_ser_hijo)
        let s1 := s.setKids qvsp ((s.f qvsp).kids ++ [qvsh])
        -- quien_va_ser_hijo.children.remove(quien_va_ser_padre)
        if qvsp ∈ (s1.f qvsh).kids then
          let s2 := s1.setKids qvsh (((s1.f qvsh).kids).erase qvsp)
          -- rotate the one-edge (dist, support) buffer
          let bufD2 := (s2.f qvsh).dist
          let bufS2 := (s2.f qvsh).support
          let s3 := (s2.setDist qvsh bufD).setSupport qvsh bufS
          -- quien_va_ser_padre.up = quien_fue_padre
          let s4 := s3.setUp qvsp qfp
          -- shift: qfp := qvsp; qvsp := qvsh; qvsh := qvsp.up
          rotLoop root fuel s4 qvsh ((s4.f qvsh).up) (some qvsp) bufD2 bufS2
        else .error "ValueError: list.remove(x): x not in list"

/-- The closing block of `set_outgroup` (tree.py lines 950-957):
`outgroup.up = self; outgroup2.up = self; self.children =
[outgroup, outgroup2]`; both children receive half of the sum of the two
dists they carry at this point; the connector's support is set to the
outgroup's support; finally `self.children.sort()` (Python 2 sorts the two
node objects by an arbitrary but fixed total order, modelled as ascending
id order). -/
def setOutgroupFinal (u : Forest) (root og og2 : Nat) : Forest :=
  let u1 := u.setUp og (some root)
  let u2 := u1.setUp og2 (some root)
  let u3 := u2.setKids root [og, og2]
  let middist := ((u3.f og2).dist + (u3.f og).dist) / 2
  let u4 := u3.setDist og middist
  let u5 := u4.setDist og2 middist
  let u6 := u5.setSupport og2 ((u5.f og).support)
  u6.setKids root (if og ≤ og2 then [og, og2] else [og2, og])

/-- The reattachment steps after the swapping loop (tree.py lines
938-946): append the down-branch connector to the last swapped node, set
the carried parent pointers, add the buffered edge weight to the
connector, cut the outgroup loose from its old parent (`outgroup2`) and
zero `outgroup2`'s dist, then run the closing block with `outgroup2` as
the second child. -/
def setOutgroupReattach (u : Forest) (root og po dbc pkF : Nat)
    (qfpF : Option Nat) (bufDF : ℚ) : Except String Forest :=
  let t1 := u.setKids pkF ((u.f pkF).kids ++ [dbc])
  let t2 := t1.setUp dbc (some pkF)
  let t3 := t2.setUp pkF qfpF
  -- down_branch_connector.dist += buffered_dist
  let t4 := t3.setDist dbc ((t3.f dbc).dist + bufDF)
  -- outgroup2 = parent_outgroup; parent_outgroup.children.remove(outgroup)
  if og ∈ (t4.f po).kids then
    let t5 := t4.setKids po (((t4.f po).kids).erase og)
    -- outgroup2.dist = 0
    let t6 := t5.setDist po 0
    .ok (setOutgroupFinal t6 root og po)
  else .error "ValueError: list.remove(x): x not in list"

/-- `set_outgroup` after the down-branch connector has been determined
(tree.py lines 912-948): if the outgroup's original parent is not the
calling root, run the parent-child swapping loop from it and reattach;
otherwise the connector itself plays the role of `outgroup2`. -/
def setOutgroupConnect (cur : Forest) (root og po dbc : Nat) (fuel : Nat) :
    Except String Forest :=
  if po ≠ root then
    let bufD := (cur.f po).dist
    let bufS := (cur.f po).support
    match rotLoop root fuel cur po ((cur.f po).up) none bufD bufS with
    | .error e => .error e
    | .ok (s', qvspF, qfpF, bufDF) =>
      setOutgroupReattach s' root og po dbc qvspF qfpF bufDF
  else
    .ok (setOutgroupFinal cur root og dbc)

/-- The gather phase of `set_outgroup` (tree.py lines 901-908): when more
than one child remains after removing the path child `n`, a fresh
`TreeNode()` is created (dist set to `0.0`, support copied from `n`) and
every remaining child is appended under it (`ch.up` repointed, the root's
child list emptied).  The fresh node gets id `s1.next`. -/
def setOutgroupGather (s1 : Forest) (root n : Nat) : Forest :=
  let dbc := s1.next
  let kidsR := (s1.f root).kids
  let s2 := s1.setNode dbc
    { FNode.fresh with dist := 0, support := (s1.f n).support }
  let s3 := s2.setKids dbc kidsR
  let s4 := kidsR.foldl (fun acc ch => acc.setUp ch (some dbc)) s3
  let s5 := s4.setKids root []
  { s5 with next := s5.next + 1 }

/-- `TreeNode.set_outgroup(outgroup)` (tree.py lines 875-957) with the
outgroup already resolved to a node id.  The self-as-outgroup validation
comes first, before any structural change.  Then: locate the child `n` of
the root on the path to the outgroup, remove it from the root's child
list; if more than one other child remains, gather them under a newly
created down-branch connector (dist 0, support copied from `n`), otherwise
the single remaining child is the connector (an empty remainder raises
`IndexError` at `self.children[0]`); finally perform the rotation and the
closing redistribution. -/
def setOutgroup (s : Forest) (root og : Nat) (fuel : Nat) : Except String Forest :=
  if og = root then .error "ValueError: Cannot set myself as outgroup"
  else
    match (s.f og).up with
    | none => .error "AttributeError: NoneType object has no attribute up"
    | some po =>
      match climbToChildOf s root fuel og with
      | .error e => .error e
      | .ok n =>
        if n ∈ (s.f root).kids then
          let s1 := s.setKids root (((s.f root).kids).erase n)
          let kidsR := (s1.f root).kids
          if kidsR.length > 1 then
            setOutgroupConnect (setOutgroupGather s1 root n) root og po
              s1.next fuel
          else
            match kidsR with
            | [] => .error "IndexError: list index out of range"
            | c :: _ => setOutgroupConnect s1 root og po c fuel
        else .error "ValueError: list.remove(x): x not in list"

/-- Breadth-first traversal over ids (the default `levelorder` strategy
used by `search_nodes` via `traverse`), on the pointer model. -/
def levelorderIdsF (s : Forest) : Nat → List Nat → List Nat
  | 0, _ => []
  | _ + 1, [] => []
  | fuel + 1, n :: rest => n :: levelorderIdsF s fuel (rest ++ (s.f n).kids)

/-- `search_nodes(name=nm)`: all nodes under (and including) `root` whose
`name` feature equals `nm`, in levelorder (tree.py lines 631-661). -/
def searchNodesByName (s : Forest) (root : Nat) (nm : String) (fuel : Nat) :
    List Nat :=
  (levelorderIdsF s fuel [root]).filter (fun i => (s.f i).name == nm)

/-- `_translate_nodes` for a single argument (tree.py lines 1149-1168): a
node reference passes through; a name is resolved by `search_nodes`, with
zero matches raising `Node name not found` and several matches raising
`Ambiguos node name`. -/
def translateNode (s : Forest) (root : Nat) (ref : String ⊕ Nat) (fuel : Nat) :
    Except String Nat :=
  match ref with
  | .inr nid => .ok nid
  | .inl nm =>
    match searchNodesByName s root nm fuel with
    | [] => .error "ValueError: Node name not found"
    | [i] => .ok i
    | _ => .error "ValueError: Ambiguos node name"

/-- `set_outgroup` as called by users: the argument is first passed through
`_translate_nodes` (tree.py line 885), then the resolved node is used. -/
def setOutgroupRef (s : Forest) (root : Nat) (ref : String ⊕ Nat) (fuel : Nat) :
    Except String Forest :=
  match translateNode s root ref fuel with
  | .error e => .error e
  | .ok og => setOutgroup s root og fuel

end Forest

/-! ### C3 — self-as-outgroup validation -/

/-- C3: for every state of the object graph, every root, and every
outgroup argument (node reference or name) that resolves to the root
itself, `set_outgroup` raises (`ValueError: Cannot set myself as
outgroup`).  The check `if self == outgroup` is the first statement after
name resolution, before any structural change, so in the model the error
is returned without any state having been produced: a caller's tree is
exactly as it was before the call. -/
theorem c3_setOutgroup_self_error (s : Forest) (root : Nat)
    (ref : String ⊕ Nat) (fuel : Nat)
    (h : Forest.translateNode s root ref fuel = .ok root) :
    Forest.setOutgroupRef s root ref fuel =
      .error "ValueError: Cannot set myself as outgroup" := by
  simp [Forest.setOutgroupRef, h, Forest.setOutgroup]

/-- A two-node tree with distinct names, for resolving nodes by name. -/
def namedTree : Forest :=
  { f := fun y =>
      if y = 0 then { FNode.fresh with kids := [1], name := "root" }
      else if y = 1 then { FNode.fresh with up := some 0, name := "A" }
      else FNode.fresh,
    next := 2 }

/-- Witness for C3: passing the name string `root`, which resolves to the
calling root node 0 of `namedTree`, raises the self-as-outgroup error. -/
theorem c3_witness :
    Forest.setOutgroupRef namedTree 0 (.inl "root") 5 =
      .error "ValueError: Cannot set myself as outgroup" :=
  c3_setOutgroup_self_error namedTree 0 (.inl "root") 5 (by rfl)

/-! ### C4 — shape of the tree after `set_outgroup` -/

/-- C4 counterexample: on a tree whose root has a single child, every
`set_outgroup` call (here with the child itself as a valid outgroup,
distinct from the root) removes the path child from the root's child list,
leaving it empty, and then crashes with `IndexError` at
`self.children[0]`.  The call therefore does not terminate with the root
having two children, falsifying the claim as stated for arbitrary
trees. -/
theorem c4_single_child_root_crashes :
    Forest.setOutgroup rootWithChild 0 1 5 =
      .error "IndexError: list index out of range" := by
  rfl

/-! ### Field-access lemmas for the pointer model -/

namespace Forest

@[simp] theorem up_setKids (s : Forest) (x : Nat) (ks : List Nat) (y : Nat) :
    ((s.setKids x ks).f y).up = (s.f y).up := by
  unfold setKids setNode; by_cases h : y = x <;> simp [h]

@[simp] theorem dist_setKids (s : Forest) (x : Nat) (ks : List Nat) (y : Nat) :
    ((s.setKids x ks).f y).dist = (s.f y).dist := by
  unfold setKids setNode; by_cases h : y = x <;> simp [h]

@[simp] theorem support_setKids (s : Forest) (x : Nat) (ks : List Nat) (y : Nat) :
    ((s.setKids x ks).f y).support = (s.f y).support := by
  unfold setKids setNode; by_cases h : y = x <;> simp [h]

@[simp] theorem kids_setKids (s : Forest) (x : Nat) (ks : List Nat) (y : Nat) :
    ((s.setKids x ks).f y).kids = if y = x then ks else (s.f y).kids := by
  unfold setKids setNode; by_cases h : y = x <;> simp [h]

@[simp] theorem kids_setUp (s : Forest) (x : Nat) (u : Option Nat) (y : Nat) :
    ((s.setUp x u).f y).kids = (s.f y).kids := by
  unfold setUp setNode; by_cases h : y = x <;> simp [h]

@[simp] theorem dist_setUp (s : Forest) (x : Nat) (u : Option Nat) (y : Nat) :
    ((s.setUp x u).f y).dist = (s.f y).dist := by
  unfold setUp setNode; by_cases h : y = x <;> simp [h]

@[simp] theorem support_setUp (s : Forest) (x : Nat) (u : Option Nat) (y : Nat) :
    ((s.setUp x u).f y).support = (s.f y).support := by
  unfold setUp setNode; by_cases h : y = x <;> simp [h]

@[simp] theorem up_setUp (s : Forest) (x : Nat) (u : Option Nat) (y : Nat) :
    ((s.setUp x u).f y).up = if y = x then u else (s.f y).up := by
  unfold setUp setNode; by_cases h : y = x <;> simp [h]

@[simp] theorem up_setDist (s : Forest) (x : Nat) (d : ℚ) (y : Nat) :
    ((s.setDist x d).f y).up = (s.f y).up := by
  unfold setDist setNode; by_cases h : y = x <;> simp [h]

@[simp] theorem kids_setDist (s : Forest) (x : Nat) (d : ℚ) (y : Nat) :
    ((s.setDist x d).f y).kids = (s.f y).kids := by
  unfold setDist setNode; by_cases h : y = x <;> simp [h]

@[simp] theorem support_setDist (s : Forest) (x : Nat) (d : ℚ) (y : Nat) :
    ((s.setDist x d).f y).support = (s.f y).support := by
  unfold setDist setNode; by_cases h : y = x <;> simp [h]

@[simp] theorem dist_setDist (s : Forest) (x : Nat) (d : ℚ) (y : Nat) :
    ((s.setDist x d).f y).dist = if y = x then d else (s.f y).dist := by
  unfold setDist setNode; by_cases h : y = x <;> simp [h]

@[simp] theorem up_setSupport (s : Forest) (x : Nat) (v : ℚ) (y : Nat) :
    ((s.setSupport x v).f y).up = (s.f y).up := by
  unfold setSupport setNode; by_cases h : y = x <;> simp [h]

@[simp] theorem kids_setSupport (s : Forest) (x : Nat) (v : ℚ) (y : Nat) :
    ((s.setSupport x v).f y).kids = (s.f y).kids := by
  unfold setSupport setNode; by_cases h : y = x <;> simp [h]

@[simp] theorem dist_setSupport (s : Forest) (x : Nat) (v : ℚ) (y : Nat) :
    ((s.setSupport x v).f y).dist = (s.f y).dist := by
  unfold setSupport setNode; by_cases h : y = x <;> simp [h]

@[simp] theorem support_setSupport (s : Forest) (x : Nat) (v : ℚ) (y : Nat) :
    ((s.setSupport x v).f y).support = if y = x then v else (s.f y).support := by
  unfold setSupport setNode; by_cases h : y = x <;> simp [h]

theorem f_setUp_other (s : Forest) (x : Nat) (u : Option Nat) (y : Nat) (h : y ≠ x) :
    (s.setUp x u).f y = s.f y := by
  unfold setUp setNode; simp [h]

theorem f_setKids_other (s : Forest) (x : Nat) (ks : List Nat) (y : Nat) (h : y ≠ x) :
    (s.setKids x ks).f y = s.f y := by
  unfold setKids setNode; simp [h]

theorem f_setDist_other (s : Forest) (x : Nat) (d : ℚ) (y : Nat) (h : y ≠ x) :
    (s.setDist x d).f y = s.f y := by
  unfold setDist setNode; simp [h]

theorem f_setSupport_other (s : Forest) (x : Nat) (v : ℚ) (y : Nat) (h : y ≠ x) :
    (s.setSupport x v).f y = s.f y := by
  unfold setSupport setNode; simp [h]

/-! ### The ancestor chain of the outgroup -/

/-- `isUpChain s x path r`: following the `up` pointers from `x` visits
exactly the nodes of `path` and then reaches `r`, and every link agrees
with the parent's child list (spec §3 invariant 2), including the last
node's membership in `r`'s child list. -/
def isUpChain (s : Forest) : Nat → List Nat → Nat → Prop
  | x, [], r => (s.f x).up = some r ∧ x ∈ (s.f r).kids
  | x, p :: ps, r => (s.f x).up = some p ∧ x ∈ (s.f p).kids ∧ isUpChain s p ps r

/-- The part of the chain invariant the rotation loop needs: the `up`
chain from `x` through `ps` to `r`, with child-list membership at every
link except the final one into `r`. -/
def rotChain (s : Forest) : Nat → List Nat → Nat → Prop
  | x, [], r => (s.f x).up = some r
  | x, p :: ps, r => (s.f x).up = some p ∧ x ∈ (s.f p).kids ∧ rotChain s p ps r

theorem isUpChain_rotChain (s : Forest) :
    ∀ (ps : List Nat) (x r : Nat), isUpChain s x ps r → rotChain s x ps r := by
  intro ps
  induction ps with
  | nil => intro x r h; exact h.1
  | cons p ps ih =>
    intro x r h
    exact ⟨h.1, h.2.1, ih p r h.2.2⟩

/-- `rotChain` only reads the `up` pointers of the chain nodes and the
child lists of the strict-ancestor part; two states agreeing there carry
the same chains. -/
theorem rotChain_of_eq (s s' : Forest) :
    ∀ (ps : List Nat) (x r : Nat),
      (∀ y, y = x ∨ y ∈ ps → ((s'.f y).up = (s.f y).up)) →
      (∀ y ∈ ps, (s'.f y).kids = (s.f y).kids) →
      rotChain s x ps r → rotChain s' x ps r := by
  intro ps
  induction ps with
  | nil =>
    intro x r hup _ h
    show (s'.f x).up = some r
    rw [hup x (Or.inl rfl)]
    exact h
  | cons p ps ih =>
    intro x r hup hkids h
    refine ⟨?_, ?_, ?_⟩
    · rw [hup x (Or.inl rfl)]; exact h.1
    · rw [hkids p (by simp)]; exact h.2.1
    · refine ih p r ?_ ?_ h.2.2
      · intro y hy
        rcases hy with hy | hy
        · exact hup y (Or.inr (by simp [hy]))
        · exact hup y (Or.inr (by simp [hy]))
      · intro y hy
        exact hkids y (by simp [hy])

/-- Specification of the parent-child swapping loop (`rotLoop`): starting
from the first chain node with the chain invariant and fresh fuel, the
loop succeeds, stops at the last chain node, writes only chain nodes,
appends the second chain node to the entry node's child list, and returns
as final buffer the original dist of the last chain node. -/
theorem rotLoop_spec (root : Nat) :
    ∀ (ps : List Nat) (s : Forest) (qvsp : Nat) (qfp : Option Nat)
      (bufD bufS : ℚ) (fuel : Nat),
      ps.length + 1 ≤ fuel →
      rotChain s qvsp ps root →
      (root :: qvsp :: ps).Nodup →
      ∃ s' qfpF,
        rotLoop root fuel s qvsp ((s.f qvsp).up) qfp bufD bufS =
          .ok (s', ps.getLastD qvsp, qfpF,
            (match ps with
             | [] => bufD
             | _ :: _ => (s.f (ps.getLastD qvsp)).dist)) ∧
        (∀ y, y ≠ qvsp → y ∉ ps → s'.f y = s.f y) ∧
        ((s'.f qvsp).kids =
          (match ps with
           | [] => (s.f qvsp).kids
           | p :: _ => (s.f qvsp).kids ++ [p])) := by
  intro ps
  induction ps with
  | nil =>
    intro s qvsp qfp bufD bufS fuel hfuel hchain hnd
    obtain ⟨fuel', rfl⟩ : ∃ k, fuel = k + 1 := ⟨fuel - 1, by omega⟩
    refine ⟨s, qfp, ?_, ?_, ?_⟩
    · have hup : (s.f qvsp).up = some root := hchain
      rw [hup]
      simp [rotLoop]
    · intro y _ _; rfl
    · rfl
  | cons p ps ih =>
    intro s qvsp qfp bufD bufS fuel hfuel hchain hnd
    obtain ⟨hup, hmem, hrest⟩ := hchain
    obtain ⟨fuel', rfl⟩ : ∃ k, fuel = k + 1 := ⟨fuel - 1, by omega⟩
    -- distinctness facts
    simp only [List.nodup_cons, List.mem_cons, not_or] at hnd
    obtain ⟨⟨hrq, hrp, hrps⟩, ⟨hqp, hqps⟩, ⟨hpps, hndps⟩⟩ := hnd
    -- the four successive writes of one loop body
    set s1 := s.setKids qvsp ((s.f qvsp).kids ++ [p]) with hs1
    set s2 := s1.setKids p (((s1.f p).kids).erase qvsp) with hs2
    set s3 := (s2.setDist p bufD).setSupport p bufS with hs3
    set s4 := s3.setUp qvsp qfp with hs4
    have hne_pq : p ≠ qvsp := fun h => hqp h.symm
    have hs4_frame : ∀ y, y ≠ qvsp → y ≠ p → s4.f y = s.f y := by
      intro y hy1 hy2
      rw [hs4, hs3, hs2, hs1]
      rw [Forest.f_setUp_other _ _ _ _ hy1,
        Forest.f_setSupport_other _ _ _ _ hy2,
        Forest.f_setDist_other _ _ _ _ hy2,
        Forest.f_setKids_other _ _ _ _ hy2,
        Forest.f_setKids_other _ _ _ _ hy1]
    -- one unfolding of the loop
    have hstep :
        rotLoop root (fuel' + 1) s qvsp ((s.f qvsp).up) qfp bufD bufS =
          rotLoop root fuel' s4 p ((s4.f p).up) (some qvsp)
            ((s2.f p).dist) ((s2.f p).support) := by
      rw [hup]
      show rotLoop root (fuel' + 1) s qvsp (some p) qfp bufD bufS = _
      simp only [rotLoop]
      rw [if_neg (Ne.symm hrp)]
      have hmem1 : qvsp ∈ (s1.f p).kids := by
        rw [hs1]
        simp [hne_pq, hmem]
      simp only [← hs1, if_pos hmem1, ← hs2, ← hs3, ← hs4]
    -- chain invariant carries over to s4
    have hchain4 : rotChain s4 p ps root := by
      refine rotChain_of_eq s s4 ps p root ?_ ?_ hrest
      · intro y hy
        have hyq : y ≠ qvsp := by
          rcases hy with rfl | hy
          · exact hne_pq
          · exact fun h => hqps (h ▸ hy)
        rcases hy with rfl | hy
        · rw [hs4, hs3, hs2, hs1]
          simp [hyq]
        · have : s4.f y = s.f y :=
            hs4_frame y hyq (fun h => hpps (h ▸ hy))
          rw [this]
      · intro y hy
        have : s4.f y = s.f y :=
          hs4_frame y (fun h => hqps (h ▸ hy)) (fun h => hpps (h ▸ hy))
        rw [this]
    have hnd4 : (root :: p :: ps).Nodup := by
      simp only [List.nodup_cons, List.mem_cons, not_or]
      exact ⟨⟨hrp, hrps⟩, hpps, hndps⟩
    obtain ⟨s', qfpF, heq, hframe, hkids⟩ :=
      ih s4 p (some qvsp) ((s2.f p).dist) ((s2.f p).support) fuel'
        (by simpa using Nat.lt_of_succ_le hfuel) hchain4 hnd4
    refine ⟨s', qfpF, ?_, ?_, ?_⟩
    · rw [hstep, heq]
      cases ps with
      | nil =>
        have hd : (s2.f p).dist = (s.f p).dist := by
          rw [hs2, hs1]; simp
        simp only [List.getLastD_cons, List.getLastD_nil, hd]
      | cons q qs =>
        have hlq : (qs.getLastD q) ∈ q :: qs := List.getLastD_mem_cons qs q
        have h1 : qs.getLastD q ≠ qvsp := fun h => hqps (h ▸ hlq)
        have h2 : qs.getLastD q ≠ p := fun h => hpps (h ▸ hlq)
        have hd : (s4.f (qs.getLastD q)).dist = (s.f (qs.getLastD q)).dist := by
          rw [hs4_frame _ h1 h2]
        simp only [List.getLastD_cons, hd]
    · intro y hy1 hy2
      simp only [List.mem_cons, not_or] at hy2
      obtain ⟨hyp, hyps⟩ := hy2
      rw [hframe y hyp hyps, hs4_frame y hy1 hyp]
    · have hq_notin : qvsp ∉ ps := hqps
      rw [hframe qvsp hqp hq_notin]
      rw [hs4, hs3, hs2, hs1]
      simp [hqp]

/-- The fields of the root and its two new children after the closing
block of `set_outgroup`: exactly two children (in the model's sort order),
each carrying half of the sum of the dists the two carried just before the
redistribution, and the connector's support set to the outgroup's. -/
theorem setOutgroupFinal_spec (u : Forest) (root og og2 : Nat)
    (h1 : og ≠ root) (h2 : og2 ≠ root) (h3 : og ≠ og2) :
    ((setOutgroupFinal u root og og2).f root).kids =
        (if og ≤ og2 then [og, og2] else [og2, og]) ∧
      ((setOutgroupFinal u root og og2).f og).dist =
        (((u.f og2).dist + (u.f og).dist) / 2) ∧
      ((setOutgroupFinal u root og og2).f og2).dist =
        (((u.f og2).dist + (u.f og).dist) / 2) ∧
      ((setOutgroupFinal u root og og2).f og2).support = (u.f og).support := by
  have h3' : og2 ≠ og := h3.symm
  unfold setOutgroupFinal
  refine ⟨?_, ?_, ?_, ?_⟩
  · simp
  · simp [h1, h3, h3']
  · simp [h2, h3, h3']
  · simp [h2, h3, h3']

/-- `setOutgroupConnect` when the outgroup's original parent is the root
itself (the `else` branch of tree.py lines 913-948): the connector is the
down-branch connector and the closing block runs directly. -/
theorem setOutgroupConnect_here_spec (cur : Forest) (root og dbc : Nat)
    (fuel : Nat) (hogr : og ≠ root) (hdbcr : dbc ≠ root) (hogdbc : og ≠ dbc) :
    ∃ s',
      setOutgroupConnect cur root og root dbc fuel = .ok s' ∧
        (s'.f root).kids = (if og ≤ dbc then [og, dbc] else [dbc, og]) ∧
        (s'.f og).dist = (((cur.f dbc).dist + (cur.f og).dist) / 2) ∧
        (s'.f dbc).dist = (((cur.f dbc).dist + (cur.f og).dist) / 2) ∧
        (s'.f dbc).support = (cur.f og).support := by
  refine ⟨setOutgroupFinal cur root og dbc, ?_,
    (setOutgroupFinal_spec cur root og dbc hogr hdbcr hogdbc).1,
    (setOutgroupFinal_spec cur root og dbc hogr hdbcr hogdbc).2.1,
    (setOutgroupFinal_spec cur root og dbc hogr hdbcr hogdbc).2.2.1,
    (setOutgroupFinal_spec cur root og dbc hogr hdbcr hogdbc).2.2.2⟩
  unfold setOutgroupConnect
  rw [if_neg (by simp)]


/-- Specification of the reattachment and closing steps: given that the
outgroup is (still) a child of its old parent `po`, the reattachment
succeeds and the root ends with exactly the two children `og` and `po`,
each with dist `(0 + og's prior dist) / 2` (the code zeroes `po`'s dist
just before the redistribution), and `po`'s support set to `og`'s. -/
theorem setOutgroupReattach_spec (u : Forest) (root og po dbc pk : Nat)
    (qfpF : Option Nat) (bufDF : ℚ)
    (hogr : og ≠ root) (hpor : po ≠ root) (hogpo : og ≠ po)
    (hogdbc : og ≠ dbc) (hogpk : og ≠ pk)
    (hmem : og ∈ (if po = pk then (u.f pk).kids ++ [dbc] else (u.f po).kids)) :
    ∃ s', setOutgroupReattach u root og po dbc pk qfpF bufDF = .ok s' ∧
      (s'.f root).kids = (if og ≤ po then [og, po] else [po, og]) ∧
      (s'.f og).dist = ((0 + (u.f og).dist) / 2) ∧
      (s'.f po).dist = ((0 + (u.f og).dist) / 2) ∧
      (s'.f po).support = (u.f og).support := by
  unfold setOutgroupReattach
  simp only [Forest.kids_setDist, Forest.kids_setUp, Forest.kids_setKids]
  rw [if_pos hmem]
  refine ⟨_, rfl, ?_, ?_, ?_, ?_⟩
  · exact (setOutgroupFinal_spec _ root og po hogr hpor hogpo).1
  · rw [(setOutgroupFinal_spec _ root og po hogr hpor hogpo).2.1]
    congr 1
    congr 1
    · simp
    · simp [hogpo, hogdbc, hogpk]
  · rw [(setOutgroupFinal_spec _ root og po hogr hpor hogpo).2.2.1]
    congr 1
    congr 1
    · simp
    · simp [hogpo, hogdbc, hogpk]
  · rw [(setOutgroupFinal_spec _ root og po hogr hpor hogpo).2.2.2]
    simp [hogpo, hogdbc, hogpk]

/-- `setOutgroupConnect` in the rotation case (`po ≠ root`): under the
chain invariant the rotation succeeds, and the tree ends with the root
having exactly the children `og` and `po`, each with half of `og`'s prior
dist, and `po`'s support set to `og`'s original support. -/
theorem setOutgroupConnect_rot_spec (cur : Forest) (root og po dbc : Nat)
    (ps : List Nat) (fuel : Nat)
    (hchain : rotChain cur po ps root)
    (hnd : (root :: og :: po :: ps).Nodup)
    (hdbc : dbc ∉ root :: og :: po :: ps)
    (hmem : og ∈ (cur.f po).kids)
    (hfuel : ps.length + 1 ≤ fuel) :
    ∃ s',
      setOutgroupConnect cur root og po dbc fuel = .ok s' ∧
        (s'.f root).kids = (if og ≤ po then [og, po] else [po, og]) ∧
        (s'.f og).dist = ((0 + (cur.f og).dist) / 2) ∧
        (s'.f po).dist = ((0 + (cur.f og).dist) / 2) ∧
        (s'.f po).support = (cur.f og).support := by
  simp only [List.nodup_cons, List.mem_cons, not_or] at hnd
  obtain ⟨⟨hro, hrp, hrps⟩, ⟨hop, hops⟩, ⟨hpps, hndps⟩⟩ := hnd
  simp only [List.mem_cons, not_or] at hdbc
  obtain ⟨hdr, hdo, hdp, hdps⟩ := hdbc
  have hpor : po ≠ root := fun h => hrp h.symm
  have hndr : (root :: po :: ps).Nodup := by
    simp only [List.nodup_cons, List.mem_cons, not_or]
    exact ⟨⟨hrp, hrps⟩, hpps, hndps⟩
  obtain ⟨s'', qfpF, heqLoop, hframe, hkidsPo⟩ :=
    rotLoop_spec root ps cur po none ((cur.f po).dist) ((cur.f po).support)
      fuel hfuel hchain hndr
  have hfog : s''.f og = cur.f og := hframe og (fun h => hop h) hops
  have hpk_cases : (ps = [] ∧ ps.getLastD po = po) ∨ ps.getLastD po ∈ ps := by
    cases ps with
    | nil => exact Or.inl ⟨rfl, rfl⟩
    | cons q qs =>
      refine Or.inr ?_
      rw [List.getLastD_cons]
      exact List.getLastD_mem_cons qs q
  have hogpk : og ≠ ps.getLastD po := by
    rcases hpk_cases with ⟨_, hpkpo⟩ | hmemk
    · rw [hpkpo]; exact hop
    · exact fun h => hops (h ▸ hmemk)
  have hmem' : og ∈ (if po = ps.getLastD po then
      (s''.f (ps.getLastD po)).kids ++ [dbc] else (s''.f po).kids) := by
    rcases hpk_cases with ⟨hps, hpkpo⟩ | hmemk
    · rw [if_pos hpkpo.symm, hpkpo]
      have hkk : (s''.f po).kids = (cur.f po).kids := by
        rw [hkidsPo, hps]
      rw [hkk]
      exact List.mem_append_left _ hmem
    · have hpopk : po ≠ ps.getLastD po := fun h => hpps (h ▸ hmemk)
      rw [if_neg hpopk]
      cases hps : ps with
      | nil => exact absurd hmemk (hps ▸ List.not_mem_nil _)
      | cons q qs =>
        have hkk : (s''.f po).kids = (cur.f po).kids ++ [q] := by
          have h0 := hkidsPo
          rw [hps] at h0
          exact h0
        rw [hkk]
        exact List.mem_append_left _ hmem
  -- give the final buffered dist a single name
  obtain ⟨dL, hDL⟩ : ∃ dL,
      (match ps with
       | [] => (cur.f po).dist
       | _ :: _ => (cur.f (ps.getLastD po)).dist) = dL := ⟨_, rfl⟩
  rw [hDL] at heqLoop
  obtain ⟨s3, hre, hA, hB, hC, hD⟩ :=
    setOutgroupReattach_spec s'' root og po dbc (ps.getLastD po) qfpF dL
      (fun h => hro h.symm) hpor hop (fun h => hdo h.symm) hogpk hmem'
  rw [hfog] at hB hC hD
  refine ⟨s3, ?_, hA, hB, hC, hD⟩
  unfold setOutgroupConnect
  rw [if_pos hpor]
  simp only [heqLoop]
  exact hre

/-- Frame lemma for the gather loop `for ch in self.get_children():
ch.up = down_branch_connector`: nodes not in the list are untouched. -/
theorem foldl_setUp_frame (u : Option Nat) :
    ∀ (l : List Nat) (s : Forest) (y : Nat), y ∉ l →
      ((l.foldl (fun acc ch => acc.setUp ch u) s).f y) = s.f y := by
  intro l
  induction l with
  | nil => intro s y _; rfl
  | cons a l ih =>
    intro s y hy
    simp only [List.mem_cons, not_or] at hy
    rw [List.foldl_cons, ih (s.setUp a u) y hy.2,
      Forest.f_setUp_other _ _ _ _ hy.1]

/-- The gather loop leaves `next` unchanged. -/
theorem foldl_setUp_next (u : Option Nat) :
    ∀ (l : List Nat) (s : Forest),
      ((l.foldl (fun acc ch => acc.setUp ch u) s).next) = s.next := by
  intro l
  induction l with
  | nil => intro s; rfl
  | cons a l ih =>
    intro s
    rw [List.foldl_cons, ih]
    rfl

/-- The last node of the outgroup's ancestor chain is a child of the
root. -/
theorem isUpChain_last_mem (s : Forest) :
    ∀ (ps : List Nat) (x r : Nat), isUpChain s x ps r →
      ps.getLastD x ∈ (s.f r).kids := by
  intro ps
  induction ps with
  | nil => intro x r h; exact h.2
  | cons p ps ih =>
    intro x r h
    rw [List.getLastD_cons]
    exact ih p r h.2.2

/-- The climb `while n.up is not self` returns the last node of the
outgroup's ancestor chain below the root. -/
theorem climbToChildOf_spec (s : Forest) (root : Nat) :
    ∀ (ps : List Nat) (og fuel : Nat),
      ps.length + 1 ≤ fuel → root ∉ ps →
      isUpChain s og ps root →
      climbToChildOf s root fuel og = .ok (ps.getLastD og) := by
  intro ps
  induction ps with
  | nil =>
    intro og fuel hf _ hc
    obtain ⟨fuel', rfl⟩ : ∃ k, fuel = k + 1 := ⟨fuel - 1, by omega⟩
    show climbToChildOf s root (fuel' + 1) og = _
    unfold climbToChildOf
    rw [hc.1]
    simp
  | cons p ps ih =>
    intro og fuel hf hroot hc
    obtain ⟨fuel', rfl⟩ : ∃ k, fuel = k + 1 := ⟨fuel - 1, by omega⟩
    simp only [List.mem_cons, not_or] at hroot
    show climbToChildOf s root (fuel' + 1) og = _
    unfold climbToChildOf
    rw [hc.1]
    show (if p = root then Except.ok og else climbToChildOf s root fuel' p) =
      Except.ok ((p :: ps).getLastD og)
    rw [if_neg (fun h => hroot.1 h.symm), List.getLastD_cons]
    exact ih p fuel' (by simpa using Nat.lt_of_succ_le hf) hroot.2 hc.2.2


@[simp] theorem f_bumpNext (z : Forest) (m : Nat) (y : Nat) :
    ({ z with next := m } : Forest).f y = z.f y := rfl

@[simp] theorem next_setKids (s : Forest) (x : Nat) (ks : List Nat) :
    (s.setKids x ks).next = s.next := rfl

@[simp] theorem next_setUp (s : Forest) (x : Nat) (u : Option Nat) :
    (s.setUp x u).next = s.next := rfl

/-- The gather phase does not touch nodes other than the root, the fresh
connector and the gathered children, and the fresh connector is created
with dist `0`. -/
theorem setOutgroupGather_spec (s1 : Forest) (root n : Nat)
    (hx : s1.next ∉ (s1.f root).kids) :
    (∀ y, y ≠ root → y ≠ s1.next → y ∉ (s1.f root).kids →
      (setOutgroupGather s1 root n).f y = s1.f y) ∧
    ((setOutgroupGather s1 root n).f s1.next).dist = 0 := by
  unfold setOutgroupGather
  constructor
  · intro y h1 h2 h3
    simp only [f_bumpNext]
    rw [Forest.f_setKids_other _ _ _ _ h1,
      foldl_setUp_frame _ _ _ _ h3,
      Forest.f_setKids_other _ _ _ _ h2,
      Forest.f_setNode_other _ _ _ _ h2]
  · simp only [f_bumpNext, Forest.dist_setKids]
    rw [foldl_setUp_frame _ _ _ _ hx]
    simp only [Forest.dist_setKids]
    rw [Forest.f_setNode_same]

/-- The dist carried by the rest-of-tree connector just before the final
redistribution `middist = (outgroup2.dist + outgroup.dist)/2` (tree.py
lines 953-955), computed from the initial state: when the outgroup is not
a direct child of the root (nonempty ancestor chain `path`), the
connector is the outgroup's rotated former parent whose dist the code
zeroes right before (`outgroup2.dist = 0`, line 945); when it is a direct
child and more than one sibling remains, the connector is freshly created
with `dist = 0.0` (line 903); with exactly one remaining sibling, the
connector is that sibling (`self.children[0]`, line 910) carrying its
original dist. -/
def preConnectorDist (s : Forest) (root og : Nat) (path : List Nat) : ℚ :=
  match path with
  | [] =>
    match ((s.f root).kids).erase og with
    | [c] => (s.f c).dist
    | _ => 0
  | _ :: _ => 0

end Forest


/-- C4 amended: `set_outgroup` requires the root to have at least two
children (with a single child it dies with `IndexError`, see the
counterexample `c4_single_child_root_crashes`).  For every well-formed
state — the outgroup a proper descendant of the root along an ancestor
chain `path` with consistent child lists, all involved nodes distinct, the
root's child list duplicate-free with the chain's last node as its only
entry among the involved nodes, and a genuinely fresh `next` id —
`set_outgroup` succeeds, and afterwards the root has exactly two children,
the outgroup `og` and a rest-of-tree connector `og2`; both carry dist
`(preConnectorDist s root og path + (s.f og).dist) / 2` — half of the sum
of the two dists the children carried just before the final
redistribution, the outgroup's being its original dist and the
connector's being its actual pre-redistribution dist as the source
determines it (zero for a freshly created or rotated-and-zeroed
connector, the sole remaining sibling's original dist otherwise) — and
the connector's support equals the outgroup's original support. -/
theorem c4_setOutgroup_two_children
    (s : Forest) (root og : Nat) (path : List Nat) (fuel : Nat)
    (hchain : Forest.isUpChain s og path root)
    (hnd : (root :: og :: path).Nodup)
    (hkr2 : 2 ≤ ((s.f root).kids).length)
    (hkrnd : ((s.f root).kids).Nodup)
    (hkroff : ∀ y ∈ root :: og :: path, y ∈ (s.f root).kids →
      y = path.getLastD og)
    (hnext1 : s.next ∉ root :: og :: path)
    (hnext2 : s.next ∉ (s.f root).kids)
    (hfuel : path.length + 2 ≤ fuel) :
    ∃ s' og2,
      Forest.setOutgroup s root og fuel = .ok s' ∧
      og2 ≠ og ∧
      (s'.f root).kids = (if og ≤ og2 then [og, og2] else [og2, og]) ∧
      (s'.f og).dist =
        ((Forest.preConnectorDist s root og path + (s.f og).dist) / 2) ∧
      (s'.f og2).dist =
        ((Forest.preConnectorDist s root og path + (s.f og).dist) / 2) ∧
      (s'.f og2).support = (s.f og).support := by
  have hndfull := hnd
  simp only [List.nodup_cons, List.mem_cons, not_or] at hnd
  obtain ⟨⟨hro, hrpath⟩, hogpath, hndpath⟩ := hnd
  simp only [List.mem_cons, not_or] at hnext1
  obtain ⟨hxr, hxo, hxpath⟩ := hnext1
  have hogr : og ≠ root := fun h => hro h.symm
  have hn_mem : path.getLastD og ∈ (s.f root).kids :=
    Forest.isUpChain_last_mem s path og root hchain
  have hclimb : Forest.climbToChildOf s root fuel og =
      .ok (path.getLastD og) :=
    Forest.climbToChildOf_spec s root path og fuel (by omega) hrpath hchain
  have hn_not_er : path.getLastD og ∉
      ((s.f root).kids).erase (path.getLastD og) := hkrnd.not_mem_erase
  have hsub_er : ∀ y ∈ ((s.f root).kids).erase (path.getLastD og),
      y ∈ (s.f root).kids := fun y hy => List.mem_of_mem_erase hy
  have hdisj : ∀ y ∈ root :: og :: path,
      y ∉ ((s.f root).kids).erase (path.getLastD og) := by
    intro y hy hyer
    exact hn_not_er ((hkroff y hy (hsub_er y hyer)) ▸ hyer)
  have hog_er : og ∉ ((s.f root).kids).erase (path.getLastD og) :=
    hdisj og (by simp)
  have hroot_er : root ∉ ((s.f root).kids).erase (path.getLastD og) :=
    hdisj root (by simp)
  have hx_er : s.next ∉ ((s.f root).kids).erase (path.getLastD og) :=
    fun h => hnext2 (hsub_er _ h)
  have hlen_er : 1 ≤ (((s.f root).kids).erase (path.getLastD og)).length := by
    rw [List.length_erase_of_mem hn_mem]
    omega
  cases path with
  | nil =>
    simp only [List.getLastD_nil] at hn_mem hclimb hn_not_er hsub_er hdisj hog_er hroot_er hx_er hlen_er
    have hup : (s.f og).up = some root := hchain.1
    have hunfold : Forest.setOutgroup s root og fuel =
        (if og ∈ (s.f root).kids then
          (if ((((s.setKids root (((s.f root).kids).erase og)).f
              root).kids).length > 1) then
            Forest.setOutgroupConnect
              (Forest.setOutgroupGather
                (s.setKids root (((s.f root).kids).erase og)) root og)
              root og root
              (s.setKids root (((s.f root).kids).erase og)).next fuel
          else
            match ((s.setKids root
                (((s.f root).kids).erase og)).f root).kids with
            | [] => .error "IndexError: list index out of range"
            | c :: _ =>
              Forest.setOutgroupConnect
                (s.setKids root (((s.f root).kids).erase og))
                root og root c fuel)
        else .error "ValueError: list.remove(x): x not in list") := by
      unfold Forest.setOutgroup
      rw [if_neg hogr, hup, hclimb]
    rw [hunfold, if_pos hn_mem]
    simp only [Forest.kids_setKids, Forest.next_setKids, eq_self_iff_true,
      if_true]
    by_cases hgt : 1 < (((s.f root).kids).erase og).length
    · rw [if_pos hgt]
      set s1 := s.setKids root (((s.f root).kids).erase og) with hs1
      have hs1_kids : (s1.f root).kids = ((s.f root).kids).erase og := by
        rw [hs1]; simp
      have hs1_next : s1.next = s.next := by rw [hs1]; simp
      obtain ⟨hgframe, hgdist⟩ :=
        Forest.setOutgroupGather_spec s1 root og
          (by rw [hs1_next, hs1_kids]; exact hx_er)
      rw [hs1_next] at hgframe hgdist
      have hcur_og : (Forest.setOutgroupGather s1 root og).f og = s.f og := by
        rw [hgframe og hogr (fun h => hxo h.symm)
          (by rw [hs1_kids]; exact hog_er), hs1]
        exact Forest.f_setKids_other _ _ _ _ hogr
      have hxo' : og ≠ s.next := fun h => hxo h.symm
      obtain ⟨s', hok, hkr, hdog, hdog2, hsup⟩ :=
        Forest.setOutgroupConnect_here_spec
          (Forest.setOutgroupGather s1 root og) root og s.next fuel
          hogr hxr hxo'
      have hpre : Forest.preConnectorDist s root og [] = 0 := by
        obtain ⟨c1, l1, h1⟩ : ∃ c1 l1,
            ((s.f root).kids).erase og = c1 :: l1 := by
          cases h : ((s.f root).kids).erase og with
          | nil => rw [h] at hgt; simp at hgt
          | cons c1 l1 => exact ⟨c1, l1, rfl⟩
        obtain ⟨c2, l2, h2⟩ : ∃ c2 l2, l1 = c2 :: l2 := by
          cases h' : l1 with
          | nil =>
            rw [h1, h'] at hgt
            simp at hgt
          | cons c2 l2 => exact ⟨c2, l2, rfl⟩
        unfold Forest.preConnectorDist
        rw [h1, h2]
      refine ⟨s', s.next, ?_, hxo, hkr, ?_, ?_, ?_⟩
      · exact hok
      · rw [hpre, hdog, hgdist, hcur_og]
      · rw [hpre, hdog2, hgdist, hcur_og]
      · rw [hsup, hcur_og]
    · rw [if_neg hgt]
      obtain ⟨c, hc⟩ : ∃ c, ((s.f root).kids).erase og = [c] := by
        have h1 : (((s.f root).kids).erase og).length = 1 := by omega
        exact List.length_eq_one.mp h1
      rw [hc]
      rw [hc] at hog_er hroot_er
      have hcog : og ≠ c := by simpa using hog_er
      have hcroot : c ≠ root := by
        have h1 : ¬root = c := by simpa using hroot_er
        exact fun h => h1 h.symm
      set s1 := s.setKids root [c] with hs1
      have hfog1 : s1.f og = s.f og := by
        rw [hs1]; exact Forest.f_setKids_other _ _ _ _ hogr
      have hfc1 : s1.f c = s.f c := by
        rw [hs1]; exact Forest.f_setKids_other _ _ _ _ hcroot
      obtain ⟨s', hok, hkr, hdog, hdog2, hsup⟩ :=
        Forest.setOutgroupConnect_here_spec s1 root og c fuel hogr hcroot hcog
      have hpre : Forest.preConnectorDist s root og [] = (s.f c).dist := by
        unfold Forest.preConnectorDist
        rw [hc]
      refine ⟨s', c, ?_, fun h => hcog h.symm, hkr, ?_, ?_, ?_⟩
      · exact hok
      · rw [hpre, hdog, hfog1, hfc1]
      · rw [hpre, hdog2, hfog1, hfc1]
      · rw [hsup, hfog1]
  | cons p1 rest =>
    simp only [List.getLastD_cons] at hn_mem hclimb hn_not_er hsub_er hdisj hog_er hroot_er hx_er hlen_er
    simp only [List.mem_cons, not_or] at hrpath hogpath hxpath
    obtain ⟨hrp1, hrrest⟩ := hrpath
    obtain ⟨hogp1, hogrest⟩ := hogpath
    obtain ⟨hxp1, hxrest⟩ := hxpath
    have hup : (s.f og).up = some p1 := hchain.1
    have hunfold : Forest.setOutgroup s root og fuel =
        (if rest.getLastD p1 ∈ (s.f root).kids then
          (if ((((s.setKids root
                (((s.f root).kids).erase (rest.getLastD p1))).f
              root).kids).length > 1) then
            Forest.setOutgroupConnect
              (Forest.setOutgroupGather
                (s.setKids root
                  (((s.f root).kids).erase (rest.getLastD p1)))
                root (rest.getLastD p1))
              root og p1
              (s.setKids root
                (((s.f root).kids).erase (rest.getLastD p1))).next fuel
          else
            match ((s.setKids root
                (((s.f root).kids).erase (rest.getLastD p1))).f
                root).kids with
            | [] => .error "IndexError: list index out of range"
            | c :: _ =>
              Forest.setOutgroupConnect
                (s.setKids root
                  (((s.f root).kids).erase (rest.getLastD p1)))
                root og p1 c fuel)
        else .error "ValueError: list.remove(x): x not in list") := by
      unfold Forest.setOutgroup
      rw [if_neg hogr, hup, hclimb]
    rw [hunfold, if_pos hn_mem]
    simp only [Forest.kids_setKids, Forest.next_setKids, eq_self_iff_true,
      if_true]
    have hchain_s : Forest.rotChain s p1 rest root :=
      Forest.isUpChain_rotChain s rest p1 root hchain.2.2
    have hchain_mem : og ∈ (s.f p1).kids := hchain.2.1
    have hp1og : p1 ≠ og := fun h => hogp1 h.symm
    have hfuel_rot : rest.length + 1 ≤ fuel := by
      simp only [List.length_cons] at hfuel
      omega
    by_cases hgt : 1 < (((s.f root).kids).erase (rest.getLastD p1)).length
    · rw [if_pos hgt]
      set s1 := s.setKids root
        (((s.f root).kids).erase (rest.getLastD p1)) with hs1
      have hs1_kids : (s1.f root).kids =
          ((s.f root).kids).erase (rest.getLastD p1) := by
        rw [hs1]; simp
      have hs1_next : s1.next = s.next := by rw [hs1]; simp
      obtain ⟨hgframe, hgdist⟩ :=
        Forest.setOutgroupGather_spec s1 root (rest.getLastD p1)
          (by rw [hs1_next, hs1_kids]; exact hx_er)
      rw [hs1_next] at hgframe hgdist
      have hcur_frame : ∀ y ∈ root :: og :: p1 :: rest, y ≠ root →
          (Forest.setOutgroupGather s1 root (rest.getLastD p1)).f y
            = s.f y := by
        intro y hy hyr
        have hyx : y ≠ s.next := by
          have hy' := hy
          simp only [List.mem_cons] at hy'
          rcases hy' with rfl | rfl | rfl | hy'
          · exact fun h => hxr h.symm
          · exact fun h => hxo h.symm
          · exact fun h => hxp1 h.symm
          · exact fun h => hxrest (h ▸ hy')
        rw [hgframe y hyr hyx (by rw [hs1_kids]; exact hdisj y hy), hs1]
        exact Forest.f_setKids_other _ _ _ _ hyr
      have hcur_chain :
          Forest.rotChain (Forest.setOutgroupGather s1 root
            (rest.getLastD p1)) p1 rest root := by
        refine Forest.rotChain_of_eq s _ rest p1 root ?_ ?_ hchain_s
        · intro y hy
          have hmem2 : y ∈ root :: og :: p1 :: rest := by
            rcases hy with rfl | hy
            · simp
            · simp [hy]
          have hyr : y ≠ root := by
            rcases hy with rfl | hy
            · exact fun h => hrp1 h.symm
            · exact fun h => hrrest (h ▸ hy)
          rw [hcur_frame y hmem2 hyr]
        · intro y hy
          have hyr : y ≠ root := fun h => hrrest (h ▸ hy)
          rw [hcur_frame y (by simp [hy]) hyr]
      have hcur_og : (Forest.setOutgroupGather s1 root
          (rest.getLastD p1)).f og = s.f og :=
        hcur_frame og (by simp) hogr
      have hcur_mem : og ∈ ((Forest.setOutgroupGather s1 root
          (rest.getLastD p1)).f p1).kids := by
        rw [hcur_frame p1 (by simp) (fun h => hrp1 h.symm)]
        exact hchain_mem
      have hdbc : s.next ∉ root :: og :: p1 :: rest := by
        simp only [List.mem_cons, not_or]
        exact ⟨hxr, hxo, hxp1, hxrest⟩
      obtain ⟨s', hok, hkr, hdog, hdog2, hsup⟩ :=
        Forest.setOutgroupConnect_rot_spec _ root og p1 s.next rest fuel
          hcur_chain hndfull hdbc hcur_mem hfuel_rot
      have hpre : Forest.preConnectorDist s root og (p1 :: rest) = 0 := rfl
      refine ⟨s', p1, ?_, hp1og, hkr, ?_, ?_, ?_⟩
      · exact hok
      · rw [hpre, hdog, hcur_og]
      · rw [hpre, hdog2, hcur_og]
      · rw [hsup, hcur_og]
    · rw [if_neg hgt]
      obtain ⟨c, hc⟩ : ∃ c,
          ((s.f root).kids).erase (rest.getLastD p1) = [c] := by
        have h1 : (((s.f root).kids).erase (rest.getLastD p1)).length = 1 := by
          omega
        exact List.length_eq_one.mp h1
      have hcin : c ∈ ((s.f root).kids).erase (rest.getLastD p1) := by
        rw [hc]; simp
      rw [hc]
      have hcroot : c ≠ root := by
        rw [hc] at hroot_er
        have h1 : ¬root = c := by simpa using hroot_er
        exact fun h => h1 h.symm
      have hcdbc : c ∉ root :: og :: p1 :: rest :=
        fun hmem2 => hdisj c hmem2 hcin
      set s1 := s.setKids root [c] with hs1
      have hcur_frame : ∀ y, y ≠ root → s1.f y = s.f y := by
        intro y hyr
        rw [hs1]
        exact Forest.f_setKids_other _ _ _ _ hyr
      have hcur_chain : Forest.rotChain s1 p1 rest root := by
        refine Forest.rotChain_of_eq s _ rest p1 root ?_ ?_ hchain_s
        · intro y hy
          have hyr : y ≠ root := by
            rcases hy with rfl | hy
            · exact fun h => hrp1 h.symm
            · exact fun h => hrrest (h ▸ hy)
          rw [hcur_frame y hyr]
        · intro y hy
          rw [hcur_frame y (fun h => hrrest (h ▸ hy))]
      have hcur_og : s1.f og = s.f og := hcur_frame og hogr
      have hcur_mem : og ∈ (s1.f p1).kids := by
        rw [hcur_frame p1 (fun h => hrp1 h.symm)]
        exact hchain_mem
      obtain ⟨s', hok, hkr, hdog, hdog2, hsup⟩ :=
        Forest.setOutgroupConnect_rot_spec s1 root og p1 c rest fuel
          hcur_chain hndfull hcdbc hcur_mem hfuel_rot
      have hpre : Forest.preConnectorDist s root og (p1 :: rest) = 0 := rfl
      refine ⟨s', p1, ?_, hp1og, hkr, ?_, ?_, ?_⟩
      · exact hok
      · rw [hpre, hdog, hcur_og]
      · rw [hpre, hdog2, hcur_og]
      · rw [hsup, hcur_og]

/-- A four-node tree for rerooting: root 0 with children [1, 2]; node 2
has the single child 3; the outgroup is node 3, whose ancestor chain to
the root is `[2]`. -/
def rerootTree : Forest :=
  { f := fun y =>
      if y = 0 then { FNode.fresh with kids := [1, 2] }
      else if y = 1 then { FNode.fresh with up := some 0, name := "A" }
      else if y = 2 then { FNode.fresh with up := some 0, kids := [3] }
      else if y = 3 then { FNode.fresh with up := some 2, name := "B" }
      else FNode.fresh,
    next := 4 }

/-- Witness for C4 amended at the concrete tree `rerootTree` with
outgroup 3: all hypotheses hold and `set_outgroup` produces a root with
exactly two children carrying the redistributed dists and support. -/
theorem c4_witness :
    Forest.isUpChain rerootTree 3 [2] 0 ∧
    ([0, 3, 2] : List Nat).Nodup ∧
    2 ≤ ((rerootTree.f 0).kids).length ∧
    (∃ s' og2,
      Forest.setOutgroup rerootTree 0 3 10 = .ok s' ∧
      og2 ≠ 3 ∧
      (s'.f 0).kids = (if 3 ≤ og2 then [3, og2] else [og2, 3]) ∧
      (s'.f 3).dist =
        ((Forest.preConnectorDist rerootTree 0 3 [2] +
          (rerootTree.f 3).dist) / 2) ∧
      (s'.f og2).dist =
        ((Forest.preConnectorDist rerootTree 0 3 [2] +
          (rerootTree.f 3).dist) / 2) ∧
      (s'.f og2).support = (rerootTree.f 3).support) :=
  ⟨⟨rfl, by decide, rfl, by decide⟩, by decide, by decide,
    c4_setOutgroup_two_children rerootTree 0 3 [2] 10
      ⟨rfl, by decide, rfl, by decide⟩ (by decide) (by decide) (by decide)
      (by decide) (by decide) (by decide) (by decide)⟩

/-! ## Canonicalizer: `convert_to_ultrametric` (tree.py lines 1109-1138) -/

namespace PTree

mutual
/-- `node2max_depth` (tree.py lines 1117-1124): a leaf maps to 1, an
internal node to the maximum over its children plus 1 (computed by the
postorder pass over the original tree). -/
def maxDepth : PTree → Nat
  | .node _ _ _ _ [] => 1
  | .node _ _ _ _ (c :: cs) => maxDepthL (c :: cs) + 1
def maxDepthL : List PTree → Nat
  | [] => 0
  | t :: ts => max (maxDepth t) (maxDepthL ts)
end

mutual
/-- The per-descendant pass of `convert_to_ultrametric` (tree.py lines
1128-1138), carried top-down over the children.  `acc` is
`node2dist[node.up]`: for strategy `balanced` the cumulative converted
distance above the node, for `fixed` the integer depth of the parent.
(The source iterates in levelorder filling a dict; each node's update
depends only on its parent's entry, so this recursion computes the same
values.)  An unrecognized strategy leaves dists unchanged (the source
would die with `KeyError` below depth one; no claim concerns it). -/
def convDesc (strategy : String) (L step acc : ℚ) : List PTree → List PTree
  | [] => []
  | c :: cs => convOne strategy L step acc c :: convDesc strategy L step acc cs
def convOne (strategy : String) (L step acc : ℚ) : PTree → PTree
  | .node i nm d sup cs =>
    if strategy = "balanced" then
      -- node.dist = (tree_length - node2dist[node.up]) / node2max_depth[node]
      let nd := (L - acc) / ((maxDepth (.node i nm d sup cs) : ℚ))
      .node i nm nd sup (convDesc strategy L step (nd + acc) cs)
    else if strategy = "fixed" then
      -- internal: node.dist = step; leaf: tree_length - node2dist[node.up]*step
      let nd := if cs.isEmpty then L - acc * step else step
      .node i nm nd sup (convDesc strategy L step (acc + 1) cs)
    else
      .node i nm d sup (convDesc strategy L step acc cs)
end

/-- `convert_to_ultrametric(tree_length, strategy)`: precompute the fixed
per-edge `step` from the root's max depth, then rewrite every
descendant's dist (the root itself is not in `iter_descendants` and keeps
its dist). -/
def convertToUltrametric (t : PTree) (treeLength : ℚ) (strategy : String) :
    PTree :=
  let step := treeLength / ((maxDepth t : ℚ))
  match t with
  | .node i nm d sup cs =>
    .node i nm d sup (convDesc strategy treeLength step 0 cs)

mutual
/-- The cumulative root-to-leaf distances: `leafSumsAux acc t` lists, for
every leaf below `t`, the value `acc` plus the sum of the dists on the
path from `t` (exclusive) to the leaf (inclusive); at a leaf it is just
`acc`. -/
def leafSumsAux (acc : ℚ) : PTree → List ℚ
  | .node _ _ _ _ [] => [acc]
  | .node _ _ _ _ (c :: cs) => leafSumsAuxL acc (c :: cs)
def leafSumsAuxL (acc : ℚ) : List PTree → List ℚ
  | [] => []
  | c :: cs => leafSumsAux (acc + c.dist) c ++ leafSumsAuxL acc cs
end

/-- The cumulative distance from the root to each leaf (the root's own
dist is not part of any root-to-leaf path). -/
def leafPathSums (t : PTree) : List ℚ := leafSumsAux 0 t

theorem convDesc_eq_map (strategy : String) (L step acc : ℚ) :
    ∀ cs : List PTree,
      convDesc strategy L step acc cs = cs.map (convOne strategy L step acc) := by
  intro cs
  induction cs with
  | nil => rw [convDesc]; rfl
  | cons c cs ih => rw [convDesc, ih]; rfl

theorem mem_leafSumsAuxL (q : ℚ) :
    ∀ (cs : List PTree) (a : ℚ),
      q ∈ leafSumsAuxL a cs ↔ ∃ c ∈ cs, q ∈ leafSumsAux (a + c.dist) c := by
  intro cs
  induction cs with
  | nil =>
    intro a
    rw [leafSumsAuxL]
    simp
  | cons c cs ih =>
    intro a
    rw [leafSumsAuxL]
    simp only [List.mem_append, ih, List.mem_cons]
    constructor
    · rintro (h | ⟨c', hc', hq⟩)
      · exact ⟨c, Or.inl rfl, h⟩
      · exact ⟨c', Or.inr hc', hq⟩
    · rintro ⟨c', hc' | hc', hq⟩
      · exact Or.inl (hc' ▸ hq)
      · exact Or.inr ⟨c', hc', hq⟩

end PTree

namespace PTree

theorem mem_leafSumsAux_node (a q : ℚ) (i : Nat) (nm : String) (d sup : ℚ)
    (c0 : PTree) (cs : List PTree) :
    q ∈ leafSumsAux a (.node i nm d sup (c0 :: cs)) ↔
      ∃ c ∈ c0 :: cs, q ∈ leafSumsAux (a + c.dist) c := by
  rw [leafSumsAux, mem_leafSumsAuxL]

/-- Balanced strategy invariant: if `acc` is the exact cumulative
converted distance above a node, then every leaf below the converted node
ends at cumulative distance `L`. -/
theorem balanced_aux (L step : ℚ) :
    ∀ (c : PTree) (acc q : ℚ),
      q ∈ leafSumsAux (acc + (convOne "balanced" L step acc c).dist)
        (convOne "balanced" L step acc c) → q = L := by
  intro c
  induction c using PTree.ind with
  | h i nm d sup cs ihcs =>
    intro acc q hq
    rw [convOne] at hq
    simp only [reduceIte] at hq
    cases cs with
    | nil =>
      rw [convDesc] at hq
      rw [leafSumsAux] at hq
      simp only [dist_node, List.mem_singleton] at hq
      rw [maxDepth] at hq
      subst hq
      norm_num
    | cons c1 cs' =>
      rw [convDesc_eq_map] at hq
      simp only [dist_node, List.map_cons] at hq
      rw [mem_leafSumsAux_node] at hq
      obtain ⟨ch', hch', hq2⟩ := hq
      rw [← List.map_cons] at hch'
      obtain ⟨ch, hch, rfl⟩ := List.mem_map.mp hch'
      rw [add_comm acc ((L - acc) /
        ((maxDepth (node i nm d sup (c1 :: cs')) : ℚ)))] at hq2
      exact ihcs ch hch _ q hq2

/-- Fixed strategy invariant: if the node is at integer depth `k` (so the
converted cumulative distance above it is `k * step`), every leaf below
the converted node ends at cumulative distance `L`. -/
theorem fixed_aux (L step : ℚ) :
    ∀ (c : PTree) (k q : ℚ),
      q ∈ leafSumsAux (k * step + (convOne "fixed" L step k c).dist)
        (convOne "fixed" L step k c) → q = L := by
  intro c
  induction c using PTree.ind with
  | h i nm d sup cs ihcs =>
    intro k q hq
    rw [convOne] at hq
    simp only [String.reduceEq, reduceIte] at hq
    cases cs with
    | nil =>
      simp only [List.isEmpty_nil, reduceIte] at hq
      rw [convDesc] at hq
      rw [leafSumsAux] at hq
      simp only [dist_node, List.mem_singleton] at hq
      subst hq
      ring
    | cons c1 cs' =>
      simp only [List.isEmpty_cons, Bool.false_eq_true, reduceIte] at hq
      rw [convDesc_eq_map] at hq
      simp only [dist_node, List.map_cons] at hq
      rw [mem_leafSumsAux_node] at hq
      obtain ⟨ch', hch', hq2⟩ := hq
      rw [← List.map_cons] at hch'
      obtain ⟨ch, hch, rfl⟩ := List.mem_map.mp hch'
      have harith : k * step + step = (k + 1) * step := by ring
      rw [harith] at hq2
      exact ihcs ch hch (k + 1) q hq2

end PTree

/-- A single standalone node: the root is itself a leaf. -/
def singleNode : PTree := .node 0 "x" 1 1 []

/-- C6 counterexample: on the single-node tree the root is a leaf at
cumulative distance 0 from itself, and `convert_to_ultrametric` only
rewrites descendants, so after the call the unique leaf sits at
distance 0 ≠ 5 from the root; the claim fails for trees whose root is a
leaf. -/
theorem c6_single_node_counterexample :
    singleNode.children = [] ∧
    PTree.leafPathSums (PTree.convertToUltrametric singleNode 5 "balanced") =
      [0] ∧
    (0 : ℚ) ≠ 5 := by
  refine ⟨rfl, ?_, by norm_num⟩
  rw [singleNode, PTree.convertToUltrametric]
  rw [PTree.convDesc]
  rw [PTree.leafPathSums, PTree.leafSumsAux]

/-- C6 amended: for every tree whose root is not itself a leaf, every
total length `L` and each strategy in {balanced, fixed}, after
`convert_to_ultrametric` every leaf has cumulative distance from the root
equal to `L` (in exact arithmetic). -/
theorem c6_ultrametric_leaf_sums (t : PTree) (L : ℚ) (strategy : String)
    (hstrat : strategy = "balanced" ∨ strategy = "fixed")
    (hroot : t.children ≠ []) :
    ∀ q ∈ PTree.leafPathSums (PTree.convertToUltrametric t L strategy),
      q = L := by
  obtain ⟨i, nm, d, sup, cs⟩ := t
  intro q hq
  rw [PTree.convertToUltrametric] at hq
  rw [PTree.leafPathSums] at hq
  cases cs with
  | nil => exact absurd rfl hroot
  | cons c1 cs' =>
    rw [PTree.convDesc_eq_map, List.map_cons] at hq
    rw [PTree.mem_leafSumsAux_node] at hq
    obtain ⟨ch', hch', hq2⟩ := hq
    rw [← List.map_cons] at hch'
    obtain ⟨ch, hch, rfl⟩ := List.mem_map.mp hch'
    rcases hstrat with rfl | rfl
    · exact PTree.balanced_aux L _ ch 0 q hq2
    · have harith : (0 : ℚ) + (PTree.convOne "fixed" L
          (L / ((PTree.maxDepth (.node i nm d sup (c1 :: cs')) : ℚ))) 0
            ch).dist =
          0 * (L / ((PTree.maxDepth (.node i nm d sup (c1 :: cs')) : ℚ))) +
            (PTree.convOne "fixed" L
              (L / ((PTree.maxDepth (.node i nm d sup (c1 :: cs')) : ℚ))) 0
                ch).dist := by
        ring
      rw [harith] at hq2
      exact PTree.fixed_aux L _ ch 0 q hq2

/-- Witness for C6 amended on the two-node tree with `L = 6` and the
balanced strategy. -/
theorem c6_witness :
    ("balanced" = "balanced" ∨ "balanced" = "fixed") ∧
    twoNode.children ≠ [] ∧
    ∀ q ∈ PTree.leafPathSums (PTree.convertToUltrametric twoNode 6 "balanced"),
      q = 6 :=
  ⟨Or.inl rfl, by simp [twoNode],
    c6_ultrametric_leaf_sums twoNode 6 "balanced" (Or.inl rfl)
      (by simp [twoNode])⟩

/-! ## Topology editor: `detach`, `delete` and `prune` on trees -/

namespace PTree

mutual
/-- `findNode x t`: the first node with id `x` in preorder, modelling the
identification of a live node object by its identity. -/
def findNode (x : Nat) : PTree → Option PTree
  | .node i nm d sup cs =>
    if i = x then some (.node i nm d sup cs) else findNodeL x cs
def findNodeL (x : Nat) : List PTree → Option PTree
  | [] => none
  | c :: cs =>
    match findNode x c with
    | some r => some r
    | none => findNodeL x cs
end

mutual
/-- All nodes of the tree (as subtrees), in preorder. -/
def allNodes : PTree → List PTree
  | .node i nm d sup cs => .node i nm d sup cs :: allNodesL cs
def allNodesL : List PTree → List PTree
  | [] => []
  | c :: cs => allNodes c ++ allNodesL cs
end

mutual
/-- The ids of the leaves (nodes with no children), left to right: the
mathematical leaf set of spec §3 invariant 4.  (The source's
`iter_leaves` is built on the broken preorder iterator, so the keep-set
of claim C8 is taken as given by the caller.) -/
def leafIds : PTree → List Nat
  | .node i _ _ _ [] => [i]
  | .node _ _ _ _ (c :: cs) => leafIdsL (c :: cs)
def leafIdsL : List PTree → List Nat
  | [] => []
  | c :: cs => leafIds c ++ leafIdsL cs
end

mutual
/-- `TreeNode.detach` (tree.py lines 339-352) applied to the node with id
`x`: remove it from its parent's child list (a parentless `x`, i.e. the
root, is a no-op). -/
def detachT (x : Nat) : PTree → PTree
  | .node i nm d sup cs => .node i nm d sup (detachL x cs)
def detachL (x : Nat) : List PTree → List PTree
  | [] => []
  | c :: cs => if c.id = x then cs else detachT x c :: detachL x cs
end

/-- The splice step of `TreeNode.delete` (tree.py lines 327-331) at the
parent `p` of the deleted node `x`: every child of `x` is appended (in
order) at the end of `p`'s child list by `parent.add_child(ch)`, then
`parent.remove_child(x)` removes `x` itself. -/
def spliceChild (p : PTree) (x : Nat) : PTree :=
  match p with
  | .node i nm d sup cs =>
    match cs.find? (fun c => c.id == x) with
    | none => .node i nm d sup cs
    | some cx =>
      .node i nm d sup ((cs.eraseP (fun c => c.id == x)) ++ cx.children)

/-- Does `c` have a direct child with id `x`? -/
def hasChildId (x : Nat) (c : PTree) : Bool :=
  c.children.any (fun gc => gc.id == x)

mutual
/-- `TreeNode.delete(prevent_nondicotomic)` (tree.py lines 301-336) below
the root: walk down to the grandparent `g` of the deleted node `x`, splice
`x` at its parent `c`, and, when `prevent_nondicotomic` is set and `c` is
left with fewer than two children, run the cascading
`parent.delete(prevent_nondicotomic=False)` — which splices `c` into `g`
(appending `c`'s children at the end of `g`'s list) and cannot cascade
further. -/
def delAux (prevent : Bool) (x : Nat) : PTree → PTree
  | .node i nm d sup cs =>
    match cs.find? (fun c => hasChildId x c) with
    | some c =>
      let cSpliced := spliceChild c x
      if prevent ∧ cSpliced.children.length < 2 then
        .node i nm d sup
          ((cs.eraseP (fun y => y.id == c.id)) ++ cSpliced.children)
      else
        .node i nm d sup
          (cs.map (fun y => if y.id == c.id then cSpliced else y))
    | none => .node i nm d sup (delAuxL prevent x cs)
def delAuxL (prevent : Bool) (x : Nat) : List PTree → List PTree
  | [] => []
  | c :: cs => delAux prevent x c :: delAuxL prevent x cs
end

/-- `TreeNode.delete` on the node with id `x` of the tree `t`: a
parentless `x` (the root) is a no-op; for `x` a direct child of the root
the splice happens at the root and the cascade (`root.delete(False)`) is
a no-op because the root has no parent; otherwise the walk of `delAux`
finds the grandparent. -/
def deleteT (t : PTree) (x : Nat) (prevent : Bool) : PTree :=
  if t.id = x then t
  else if t.children.any (fun c => c.id == x) then spliceChild t x
  else delAux prevent x t

/-- One step of the postorder marking loop of `prune` (tree.py lines
375-383), on the pair (to_keep, to_detach): the node is marked if one of
its children is marked; an unmarked node is appended to `to_detach` and
its (necessarily previously appended) children are removed from it. -/
def pruneMarkStep (kd : List Nat × List Nat) (nd : PTree) :
    List Nat × List Nat :=
  let keep :=
    if nd.children.any (fun c => c.id ∈ kd.1) then
      if nd.id ∈ kd.1 then kd.1 else kd.1 ++ [nd.id]
    else kd.1
  if nd.id ∈ keep then (keep, kd.2)
  else (keep, nd.children.foldl (fun td c => td.erase c.id) (kd.2 ++ [nd.id]))

/-- `TreeNode.prune(nodes)` (tree.py lines 354-390): postorder marking,
detaching of the maximal unmarked subtrees, elision (`delete`) of every
kept node left with exactly one child, and the final elision of a sole
unkept child of the calling root.  The keep-set is given as node ids (the
source resolves names through `_translate_nodes` first); the iteration
over the `to_keep` set is modelled in insertion order. -/
def prune (t : PTree) (nodes : List Nat) : PTree :=
  let kd := (postorderTrav t).foldl pruneMarkStep (nodes, [])
  let t1 := kd.2.foldl (fun acc x => detachT x acc) t
  let t2 := kd.1.foldl (fun acc x =>
    match findNode x acc with
    | some nd => if nd.children.length == 1 then deleteT acc x true else acc
    | none => acc) t1
  match t2.children with
  | [c] => if c.id ∈ kd.1 then t2 else deleteT t2 c.id true
  | _ => t2

end PTree

namespace PTree

theorem id_mem_allIds (t : PTree) : t.id ∈ allIds t := by
  obtain ⟨i, nm, d, sup, cs⟩ := t
  rw [allIds]
  simp

theorem self_mem_allNodes (t : PTree) : t ∈ allNodes t := by
  obtain ⟨i, nm, d, sup, cs⟩ := t
  rw [allNodes]
  simp

theorem mem_allNodesL : ∀ (cs : List PTree) (c : PTree), c ∈ cs →
    ∀ nd ∈ allNodes c, nd ∈ allNodesL cs := by
  intro cs
  induction cs with
  | nil => intro c hc; cases hc
  | cons c0 cs' ih =>
    intro c hc nd hnd
    rw [allNodesL, List.mem_append]
    rcases List.mem_cons.mp hc with rfl | hc'
    · exact Or.inl hnd
    · exact Or.inr (ih c hc' nd hnd)

theorem findNodeL_exists : ∀ (cs : List PTree) (x : Nat) (nd : PTree),
    findNodeL x cs = some nd → ∃ c ∈ cs, findNode x c = some nd := by
  intro cs
  induction cs with
  | nil => intro x nd h; rw [findNodeL] at h; cases h
  | cons c cs' ih =>
    intro x nd h
    rw [findNodeL] at h
    cases hc : findNode x c with
    | some r =>
      rw [hc] at h
      cases h
      exact ⟨c, by simp, hc⟩
    | none =>
      rw [hc] at h
      obtain ⟨c', hc', h'⟩ := ih x nd h
      exact ⟨c', by simp [hc'], h'⟩

theorem findNode_mem_allNodes (t : PTree) :
    ∀ (x : Nat) (nd : PTree), findNode x t = some nd → nd ∈ allNodes t := by
  induction t using PTree.ind with
  | h i nm d sup cs ih =>
    intro x nd h
    rw [findNode] at h
    by_cases hix : i = x
    · rw [if_pos hix] at h
      cases h
      exact self_mem_allNodes _
    · rw [if_neg hix] at h
      obtain ⟨c, hcmem, hcf⟩ := findNodeL_exists cs x nd h
      have hnd := ih c hcmem x nd hcf
      rw [allNodes]
      exact List.mem_cons_of_mem _ (mem_allNodesL cs c hcmem nd hnd)

/-- The postorder marking pass of `prune`: if the keep-set already
contains every leaf below a node, then after folding the node's postorder
list the `to_detach` list is unchanged, the keep-set only grows, and it
contains every node id of the subtree. -/
theorem mark_spec (u : PTree) :
    ∀ (kp : List Nat × List Nat),
      (∀ x ∈ leafIds u, x ∈ kp.1) →
      ∃ keep', List.foldl pruneMarkStep kp (postorderTrav u) = (keep', kp.2) ∧
        (∀ x, x ∈ kp.1 → x ∈ keep') ∧ (∀ x ∈ allIds u, x ∈ keep') := by
  induction u using PTree.rec (motive_2 := fun cs =>
    ∀ (kp : List Nat × List Nat),
      (∀ x ∈ leafIdsL cs, x ∈ kp.1) →
      ∃ keep', List.foldl pruneMarkStep kp (postorderL cs) = (keep', kp.2) ∧
        (∀ x, x ∈ kp.1 → x ∈ keep') ∧ (∀ x ∈ allIdsL cs, x ∈ keep')) with
  | node i nm d sup cs ihcs =>
    intro kp hleaf
    rw [postorderTrav, List.foldl_append]
    cases cs with
    | nil =>
      rw [postorderL]
      refine ⟨kp.1, ?_, fun x hx => hx, ?_⟩
      · have hii : i ∈ kp.1 := by
          apply hleaf
          rw [leafIds]
          simp
        simp only [List.foldl_nil, List.foldl_cons, pruneMarkStep]
        simp [hii]
      · intro x hx
        rw [allIds] at hx
        rw [allIdsL] at hx
        simp only [List.mem_cons, List.not_mem_nil, or_false] at hx
        subst hx
        apply hleaf
        rw [leafIds]
        simp
    | cons c1 cs' =>
      have hleaf' : ∀ x ∈ leafIdsL (c1 :: cs'), x ∈ kp.1 := by
        intro x hx
        apply hleaf
        rw [leafIds]
        exact hx
      obtain ⟨keep', heq, hmono, hall⟩ := ihcs kp hleaf'
      rw [heq]
      have hc1 : c1.id ∈ keep' := by
        apply hall
        rw [allIdsL]
        exact List.mem_append_left _ (id_mem_allIds c1)
      have hany : ((c1 :: cs').any (fun c => decide (c.id ∈ keep'))) = true := by
        simp only [List.any_eq_true, decide_eq_true_eq]
        exact ⟨c1, by simp, hc1⟩
      refine ⟨if i ∈ keep' then keep' else keep' ++ [i], ?_, ?_, ?_⟩
      · simp only [List.foldl_cons, List.foldl_nil, pruneMarkStep,
          children_node, id_node, hany, if_true]
        by_cases hik : i ∈ keep'
        · simp [hik]
        · simp [hik]
      · intro x hx
        by_cases hik : i ∈ keep'
        · simpa [hik] using hmono x hx
        · simp only [if_neg hik, List.mem_append]
          exact Or.inl (hmono x hx)
      · intro x hx
        rw [allIds] at hx
        rcases List.mem_cons.mp hx with rfl | hx'
        · by_cases hik : x ∈ keep'
          · simp [hik]
          · simp [hik]
        · by_cases hik : i ∈ keep'
          · simpa [hik] using hall x hx'
          · simp only [if_neg hik, List.mem_append]
            exact Or.inl (hall x hx')
  | nil =>
    rename_i kp hlf
    rw [postorderL]
    exact ⟨kp.1, by simp, fun x hx => hx,
      by intro x hx; rw [allIdsL] at hx; cases hx⟩
  | cons c cs' ihc ihcs =>
    rename_i kp hleaf
    rw [postorderL, List.foldl_append]
    have hleafc : ∀ x ∈ leafIds c, x ∈ kp.1 := by
      intro x hx
      apply hleaf
      rw [leafIdsL]
      exact List.mem_append_left _ hx
    obtain ⟨k1, heq1, hmono1, hall1⟩ := ihc kp hleafc
    rw [heq1]
    have hleafcs : ∀ x ∈ leafIdsL cs', x ∈ (k1, kp.2).1 := by
      intro x hx
      exact hmono1 x (hleaf x (by rw [leafIdsL]; exact List.mem_append_right _ hx))
    obtain ⟨k2, heq2, hmono2, hall2⟩ := ihcs (k1, kp.2) hleafcs
    refine ⟨k2, heq2, fun x hx => hmono2 x (hmono1 x hx), ?_⟩
    intro x hx
    rw [allIdsL] at hx
    rcases List.mem_append.mp hx with hx' | hx'
    · exact hmono2 x (hall1 x hx')
    · exact hall2 x hx'

/-- The `delete` loop of `prune` does nothing when no node of the tree
has exactly one child. -/
theorem foldl_delete_noop (t : PTree)
    (hns : ∀ nd ∈ allNodes t, nd.children.length ≠ 1) :
    ∀ (l : List Nat),
      l.foldl (fun acc x =>
        match findNode x acc with
        | some nd => if nd.children.length == 1 then deleteT acc x true else acc
        | none => acc) t = t := by
  intro l
  induction l with
  | nil => rfl
  | cons a l ih =>
    rw [List.foldl_cons]
    have hstep : (match findNode a t with
        | some nd => if nd.children.length == 1 then deleteT t a true else t
        | none => t) = t := by
      cases hf : findNode a t with
      | none => rfl
      | some nd =>
        have hne := hns nd (findNode_mem_allNodes t a nd hf)
        have hb : (nd.children.length == 1) = false := by
          simp [hne]
        show (if (nd.children.length == 1) = true then deleteT t a true else t)
          = t
        rw [hb]
        simp
    rw [hstep, ih]

end PTree

/-- The tree `root(A, J(D))` with a single-child internal node `J`. -/
def pruneTree : PTree :=
  .node 0 "root" 1 1
    [.node 1 "A" 1 1 [], .node 2 "J" 1 1 [.node 3 "D" 1 1 []]]

/-- C8 counterexample: pruning `pruneTree` to its exact current leaf set
{A, D} elides the single-child internal node `J`, yielding `root(A, D)` —
a tree with 3 nodes, while the input has 4.  Since isomorphic labeled
topologies have equally many nodes, the result is not isomorphic to the
input. -/
theorem c8_prune_elides_single_child :
    PTree.leafIds pruneTree = [1, 3] ∧
    PTree.prune pruneTree [1, 3] =
      .node 0 "root" 1 1 [.node 1 "A" 1 1 [], .node 3 "D" 1 1 []] ∧
    PTree.sizeT pruneTree = 4 ∧
    PTree.sizeT (.node 0 "root" 1 1
      [.node 1 "A" 1 1 [], .node 3 "D" 1 1 []]) = 3 := by
  refine ⟨?_, ?_, ?_, ?_⟩
  · simp [pruneTree, PTree.leafIds, PTree.leafIdsL]
  · simp [pruneTree, PTree.prune, PTree.postorderTrav, PTree.postorderL,
      PTree.pruneMarkStep, PTree.findNode, PTree.findNodeL, PTree.deleteT,
      PTree.delAux, PTree.delAuxL, PTree.spliceChild, PTree.hasChildId,
      PTree.detachT, PTree.detachL, PTree.id, PTree.children,
      List.foldl_cons, List.foldl_nil]
  · simp [pruneTree, PTree.sizeT, PTree.sizeL]
  · simp [PTree.sizeT, PTree.sizeL]

/-- C8 amended: pruning to a keep-set that equals the current leaf set
preserves the tree except that kept nodes with exactly one child are
elided; in particular, on a tree in which no node has exactly one child
(the root included), `prune` returns the tree unchanged — the identity,
hence an isomorphic tree. -/
theorem c8_prune_leafset_identity (t : PTree) (keepList : List Nat)
    (hkeep : ∀ x, x ∈ keepList ↔ x ∈ PTree.leafIds t)
    (hns : ∀ nd ∈ PTree.allNodes t, nd.children.length ≠ 1) :
    PTree.prune t keepList = t := by
  obtain ⟨keep', heq, hmono, hall⟩ :=
    PTree.mark_spec t (keepList, []) (fun x hx => (hkeep x).mpr hx)
  rw [PTree.prune]
  rw [heq]
  simp only [List.foldl_nil]
  rw [PTree.foldl_delete_noop t hns keep']
  cases ht : t.children with
  | nil => rfl
  | cons c rest =>
    cases rest with
    | nil =>
      exfalso
      apply hns t (PTree.self_mem_allNodes t)
      rw [ht]
      rfl
    | cons c2 rest' => rfl

/-- A root with two leaf children: no node has exactly one child. -/
def bifTree : PTree :=
  .node 0 "r" 1 1 [.node 1 "A" 1 1 [], .node 2 "B" 1 1 []]

/-- Witness for C8 amended: pruning `bifTree` to its leaf set `[1, 2]`
returns it unchanged. -/
theorem c8_witness : PTree.prune bifTree [1, 2] = bifTree :=
  c8_prune_leafset_identity bifTree [1, 2]
    (by
      intro x
      have h : PTree.leafIds bifTree = [1, 2] := by
        simp [bifTree, PTree.leafIds, PTree.leafIdsL]
      rw [h])
    (by
      intro nd hnd
      simp only [bifTree, PTree.allNodes, PTree.allNodesL,
        List.mem_cons, List.append_nil, List.not_mem_nil, or_false,
        List.mem_append, List.mem_singleton] at hnd
      rcases hnd with rfl | rfl | rfl <;> simp)

/-! ## C5 / C9: `get_common_ancestor` (tree.py lines 560-606) and
`get_distance` (tree.py lines 688-730).

Nodes are identified by their ids; `WF` (distinct ids) makes this
identification faithful to Python's object identity.  The sets
`nodes_bellow`, `targets`, `new_nodes` are modelled as lists used only
through membership; `s.traverse()` and `get_descendants()` (both
levelorder, hence complete) contribute exactly the member ids `allIds`. -/

namespace PTree

/-- Well-formedness: all node ids in the tree are distinct, so that ids
faithfully model Python's object identities. -/
def WF (t : PTree) : Prop := (allIds t).Nodup

mutual
/-- The id of the parent (`up` pointer) of the node with id `x`: the
first node in preorder having `x` among its children's ids. -/
def parentOf (x : Nat) : PTree → Option Nat
  | .node i _ _ _ cs =>
    if cs.any (fun c => c.id == x) then some i else parentOfL x cs
def parentOfL (x : Nat) : List PTree → Option Nat
  | [] => none
  | c :: cs =>
    match parentOf x c with
    | some p => some p
    | none => parentOfL x cs
end

mutual
/-- The list of subtrees along the root-to-`x` path (the chain of `up`
pointers from `x` to the root, reversed), when `x` is present. -/
def pathNodes (x : Nat) : PTree → Option (List PTree)
  | .node i nm d sup cs =>
    if i = x then some [.node i nm d sup cs]
    else
      match pathNodesL x cs with
      | some l => some (.node i nm d sup cs :: l)
      | none => none
def pathNodesL (x : Nat) : List PTree → Option (List PTree)
  | [] => none
  | c :: cs =>
    match pathNodes x c with
    | some l => some l
    | none => pathNodesL x cs
end

/-- `current.children` for the node with id `x`. -/
def childrenOfId (t : PTree) (x : Nat) : List PTree :=
  match findNode x t with
  | some u => u.children
  | none => []

/-- `current.dist` for the node with id `x`. -/
def distOfId (t : PTree) (x : Nat) : ℚ :=
  match findNode x t with
  | some u => u.dist
  | none => 0

/-- The id set `set([start] + start.get_descendants())` (line 592):
all ids of the subtree rooted at the node with id `x`. -/
def subtreeIds (t : PTree) (x : Nat) : List Nat :=
  match findNode x t with
  | some u => allIds u
  | none => []

/-- The climb loop of `get_common_ancestor` (lines 594-604):
`while current is not None`, extend `nodes_bellow` by the subtrees of
`current`'s children other than `prev_node` plus `current` itself, stop
at `current` once all targets are below, else climb to `current.up`.
The loop runs at most once per ancestor of `start` plus one final test
of `current is None`, so fuel `sizeT t + 1` is never exhausted. -/
def gcaLoop (t : PTree) (targets : List Nat) :
    Nat → Option Nat → Nat → List Nat → Option Nat
  | 0, _, _, _ => none
  | _ + 1, none, _, _ => none
  | fuel + 1, some current, prev, bellow =>
    let newNodes :=
      ((childrenOfId t current).filter (fun s => s.id != prev)).flatMap allIds
        ++ [current]
    let bellow2 := bellow ++ newNodes
    if targets.all (fun tg => decide (tg ∈ bellow2)) then some current
    else gcaLoop t targets fuel (parentOf current t) current bellow2

/-- The effective target list of `get_common_ancestor`: a single target
is paired with the calling node itself (`[target_nodes, self]`, line 587). -/
def effTargets (t : PTree) (targets0 : List Nat) : List Nat :=
  if targets0.length == 1 then targets0 ++ [t.id] else targets0

/-- `get_common_ancestor(self, *targets0)` called on the root `t`, with
targets given as node ids (names would go through `_translate_nodes`).
With no targets `target_nodes[-1]` dies with IndexError; the climb starts
at the last target and returns `.ok none` (Python's `None`) when it runs
off the root without covering all targets. -/
def getCommonAncestor (t : PTree) (targets0 : List Nat) :
    Except String (Option Nat) :=
  match (effTargets t targets0).getLast? with
  | none => .error "IndexError: list index out of range"
  | some start =>
    .ok (gcaLoop t (effTargets t targets0) (sizeT t + 1) (some start) start
      (subtreeIds t start))

/-- One leg of `get_distance` (lines 721-729): climb from the node with
id `current` to `anc` following parents; each node strictly below `anc`
contributes its `dist`, or in topology mode one unit unless it is the
node `target`.  Running off the root (only possible when `anc` is not an
ancestor) dereferences `None` and dies with AttributeError (in topology
mode one extra unit is first added, but the exception discards the sum). -/
def climbSum (t : PTree) (topo : Bool) (target anc : Nat) :
    Nat → Nat → Except String ℚ
  | 0, _ => .error "RuntimeError: maximum recursion depth exceeded"
  | fuel + 1, current =>
    if current = anc then .ok 0
    else
      let d : ℚ :=
        if topo then (if current ≠ target then 1 else 0) else distOfId t current
      match parentOf current t with
      | none => .error "AttributeError"
      | some p =>
        match climbSum t topo target anc fuel p with
        | .ok rest => .ok (d + rest)
        | .error e => .error e

/-- `self.get_distance(target, topology_only)` in the one-target form:
`target2 = self`, `root` is the tree root `t` (lines 708-710), then
`ancestor = root.get_common_ancestor(target, target2)` — so the climb of
the ancestor search starts at `self` — `None` raises
`TreeError: Nodes are not connected`, and the two legs `[target2, target]`
are summed, topology mode skipping nodes equal to `target` (line 726). -/
def getDistance (t : PTree) (selfId targetId : Nat) (topo : Bool) :
    Except String ℚ :=
  match getCommonAncestor t [targetId, selfId] with
  | .error e => .error e
  | .ok none => .error "TreeError: Nodes are not connected"
  | .ok (some anc) =>
    match climbSum t topo targetId anc (sizeT t) selfId with
    | .error e => .error e
    | .ok d1 =>
      match climbSum t topo targetId anc (sizeT t) targetId with
      | .error e => .error e
      | .ok d2 => .ok (d1 + d2)

end PTree

namespace PTree

/-! ### Structural lemmas: nodes, ids, well-formedness -/

theorem allIdsL_eq_map (cs : List PTree)
    (h : ∀ c ∈ cs, allIds c = (allNodes c).map PTree.id) :
    allIdsL cs = (allNodesL cs).map PTree.id := by
  induction cs with
  | nil => simp [allIdsL, allNodesL]
  | cons c cs' ih =>
    rw [allIdsL, allNodesL, List.map_append, h c (by simp),
      ih (fun c' hc' => h c' (by simp [hc']))]

theorem allIds_eq_map (t : PTree) : allIds t = (allNodes t).map PTree.id := by
  induction t using PTree.ind with
  | h i nm d sup cs ih =>
    rw [allIds, allNodes, List.map_cons, id_node, allIdsL_eq_map cs ih]

theorem mem_allNodesL_elim : ∀ (cs : List PTree) (u : PTree),
    u ∈ allNodesL cs → ∃ c ∈ cs, u ∈ allNodes c := by
  intro cs
  induction cs with
  | nil => intro u h; rw [allNodesL] at h; cases h
  | cons c cs' ih =>
    intro u h
    rw [allNodesL, List.mem_append] at h
    rcases h with h | h
    · exact ⟨c, by simp, h⟩
    · obtain ⟨c', hc', h'⟩ := ih u h
      exact ⟨c', by simp [hc'], h'⟩

theorem sizeT_le_sizeL (cs : List PTree) (c : PTree) (h : c ∈ cs) :
    sizeT c ≤ sizeL cs := by
  induction cs with
  | nil => cases h
  | cons c0 cs' ih =>
    rw [sizeL]
    rcases List.mem_cons.mp h with rfl | h'
    · omega
    · have := ih h'
      omega

theorem sizeT_le_of_mem_allNodes : ∀ (t u : PTree),
    u ∈ allNodes t → sizeT u ≤ sizeT t := by
  intro t
  induction t using PTree.ind with
  | h i nm d sup cs ih =>
    intro u hu
    rw [allNodes] at hu
    rcases List.mem_cons.mp hu with rfl | hu'
    · exact le_refl _
    · obtain ⟨c, hc, h'⟩ := mem_allNodesL_elim cs u hu'
      have h1 := ih c hc u h'
      have h2 := sizeT_le_sizeL cs c hc
      rw [sizeT]
      omega

theorem mem_allNodes_cases : ∀ (t u : PTree),
    u ∈ allNodes t → u = t ∨ sizeT u < sizeT t := by
  intro t
  induction t using PTree.ind with
  | h i nm d sup cs ih =>
    intro u hu
    rw [allNodes] at hu
    rcases List.mem_cons.mp hu with rfl | hu'
    · exact Or.inl rfl
    · obtain ⟨c, hc, h'⟩ := mem_allNodesL_elim cs u hu'
      have h1 := sizeT_le_of_mem_allNodes c u h'
      have h2 := sizeT_le_sizeL cs c hc
      rw [sizeT]
      right
      omega

theorem allNodes_trans : ∀ (t u v : PTree),
    u ∈ allNodes t → v ∈ allNodes u → v ∈ allNodes t := by
  intro t
  induction t using PTree.ind with
  | h i nm d sup cs ih =>
    intro u v hu hv
    rw [allNodes] at hu ⊢
    rcases List.mem_cons.mp hu with rfl | hu'
    · rw [← allNodes]; exact hv
    · obtain ⟨c, hc, h'⟩ := mem_allNodesL_elim cs u hu'
      exact List.mem_cons_of_mem _ (mem_allNodesL cs c hc v (ih c hc u v h' hv))

theorem allNodes_antisymm (u v : PTree)
    (h1 : u ∈ allNodes v) (h2 : v ∈ allNodes u) : u = v := by
  rcases mem_allNodes_cases v u h1 with rfl | hlt1
  · rfl
  rcases mem_allNodes_cases u v h2 with rfl | hlt2
  · rfl
  omega

theorem children_mem_allNodes (t c : PTree) (h : c ∈ t.children) :
    c ∈ allNodes t := by
  obtain ⟨i, nm, d, sup, cs⟩ := t
  rw [children_node] at h
  rw [allNodes]
  exact List.mem_cons_of_mem _ (mem_allNodesL cs c h c (self_mem_allNodes c))

theorem not_self_mem_children (t : PTree) : t ∉ t.children := by
  intro h
  obtain ⟨i, nm, d, sup, cs⟩ := t
  rw [children_node] at h
  have h1 := sizeT_le_sizeL cs _ h
  rw [sizeT] at h1
  omega

theorem mem_allIds_iff (t : PTree) (x : Nat) :
    x ∈ allIds t ↔ ∃ u ∈ allNodes t, u.id = x := by
  rw [allIds_eq_map, List.mem_map]

theorem id_mem_of_mem_allNodes (t u : PTree) (h : u ∈ allNodes t) :
    u.id ∈ allIds t :=
  (mem_allIds_iff t u.id).mpr ⟨u, h, rfl⟩

theorem wf_inj (t : PTree) (hWF : WF t) :
    ∀ u ∈ allNodes t, ∀ v ∈ allNodes t, u.id = v.id → u = v := by
  have h := hWF
  rw [WF, allIds_eq_map] at h
  exact fun u hu v hv hid => List.inj_on_of_nodup_map h hu hv hid

theorem wf_node_elim (i : Nat) (nm : String) (d sup : ℚ) (cs : List PTree)
    (h : WF (.node i nm d sup cs)) :
    (allIdsL cs).Nodup ∧ i ∉ allIdsL cs := by
  rw [WF, allIds, List.nodup_cons] at h
  exact ⟨h.2, h.1⟩

theorem mem_allIdsL_intro : ∀ (cs : List PTree) (c : PTree), c ∈ cs →
    ∀ x ∈ allIds c, x ∈ allIdsL cs := by
  intro cs
  induction cs with
  | nil => intro c hc; cases hc
  | cons c0 cs' ih =>
    intro c hc x hx
    rw [allIdsL, List.mem_append]
    rcases List.mem_cons.mp hc with rfl | hc'
    · exact Or.inl hx
    · exact Or.inr (ih c hc' x hx)

theorem mem_allIdsL_elim : ∀ (cs : List PTree) (x : Nat),
    x ∈ allIdsL cs → ∃ c ∈ cs, x ∈ allIds c := by
  intro cs
  induction cs with
  | nil => intro x h; rw [allIdsL] at h; cases h
  | cons c cs' ih =>
    intro x h
    rw [allIdsL, List.mem_append] at h
    rcases h with h | h
    · exact ⟨c, by simp, h⟩
    · obtain ⟨c', hc', h'⟩ := ih x h
      exact ⟨c', by simp [hc'], h'⟩

theorem nodup_allIdsL_mem : ∀ (cs : List PTree), (allIdsL cs).Nodup →
    ∀ c ∈ cs, (allIds c).Nodup := by
  intro cs
  induction cs with
  | nil => intro _ c hc; cases hc
  | cons c0 cs' ih =>
    intro h c hc
    rw [allIdsL, List.nodup_append] at h
    rcases List.mem_cons.mp hc with rfl | hc'
    · exact h.1
    · exact ih h.2.1 c hc'

theorem nodup_allIdsL_disjoint : ∀ (cs : List PTree), (allIdsL cs).Nodup →
    ∀ c1 ∈ cs, ∀ c2 ∈ cs, ∀ y : Nat, y ∈ allIds c1 → y ∈ allIds c2 →
      c1 = c2 := by
  intro cs
  induction cs with
  | nil => intro _ c1 hc1; cases hc1
  | cons c0 cs' ih =>
    intro h c1 hc1 c2 hc2 y hy1 hy2
    rw [allIdsL, List.nodup_append] at h
    rcases List.mem_cons.mp hc1 with rfl | hc1' <;>
      rcases List.mem_cons.mp hc2 with rfl | hc2'
    · rfl
    · exact absurd (mem_allIdsL_intro cs' c2 hc2' y hy2) (h.2.2 hy1)
    · exact absurd (mem_allIdsL_intro cs' c1 hc1' y hy1) (h.2.2 hy2)
    · exact ih h.2.1 c1 hc1' c2 hc2' y hy1 hy2

theorem wf_children (t : PTree) (hWF : WF t) : ∀ c ∈ t.children, WF c := by
  obtain ⟨i, nm, d, sup, cs⟩ := t
  intro c hc
  rw [children_node] at hc
  exact nodup_allIdsL_mem cs (wf_node_elim i nm d sup cs hWF).1 c hc

theorem unique_parent : ∀ (t : PTree), WF t →
    ∀ z ∈ allNodes t, ∀ w ∈ allNodes t, ∀ u : PTree,
      u ∈ z.children → u ∈ w.children → z = w := by
  intro t
  induction t using PTree.ind with
  | h i nm d sup cs ih =>
    intro hWF z hz w hw u huz huw
    obtain ⟨hnd, _⟩ := wf_node_elim i nm d sup cs hWF
    have key : ∀ a ∈ allNodesL cs, ∀ b : PTree, b ∈ a.children →
        ∀ c ∈ cs, b.id ∈ allIds c → a ∈ allNodes c := by
      intro a ha b hb c hc hbc
      obtain ⟨c', hc', ha'⟩ := mem_allNodesL_elim cs a ha
      have hba : b ∈ allNodes a := children_mem_allNodes a b hb
      have hbc' : b.id ∈ allIds c' :=
        id_mem_of_mem_allNodes c' b (allNodes_trans c' a b ha' hba)
      rw [nodup_allIdsL_disjoint cs hnd c hc c' hc' b.id hbc hbc']
      exact ha'
    rw [allNodes] at hz hw
    rcases List.mem_cons.mp hz with rfl | hz' <;>
      rcases List.mem_cons.mp hw with rfl | hw'
    · rfl
    · -- z is the root, w lies strictly below: u is both a direct child and
      -- a grandchild or deeper, contradicting id distinctness
      exfalso
      rw [children_node] at huz
      have huw' : u ∈ allNodes w := children_mem_allNodes w u huw
      have hw2 : w ∈ allNodes u :=
        key w hw' u huw u huz (id_mem_allIds u)
      have : u = w := allNodes_antisymm u w huw' hw2
      exact not_self_mem_children w (this ▸ huw)
    · exfalso
      rw [children_node] at huw
      have huz' : u ∈ allNodes z := children_mem_allNodes z u huz
      have hz2 : z ∈ allNodes u :=
        key z hz' u huz u huw (id_mem_allIds u)
      have : u = z := allNodes_antisymm u z huz' hz2
      exact not_self_mem_children z (this ▸ huz)
    · obtain ⟨c1, hc1, hz1⟩ := mem_allNodesL_elim cs z hz'
      obtain ⟨c2, hc2, hw1⟩ := mem_allNodesL_elim cs w hw'
      have huid1 : u.id ∈ allIds c1 :=
        id_mem_of_mem_allNodes c1 u
          (allNodes_trans c1 z u hz1 (children_mem_allNodes z u huz))
      have huid2 : u.id ∈ allIds c2 :=
        id_mem_of_mem_allNodes c2 u
          (allNodes_trans c2 w u hw1 (children_mem_allNodes w u huw))
      have hceq : c1 = c2 :=
        nodup_allIdsL_disjoint cs hnd c1 hc1 c2 hc2 u.id huid1 huid2
      subst hceq
      exact ih c1 hc1 (nodup_allIdsL_mem cs hnd c1 hc1) z hz1 w hw1 u huz huw

/-! ### `findNode` and `parentOf` under well-formedness -/

theorem findNode_id : ∀ (t : PTree) (x : Nat) (u : PTree),
    findNode x t = some u → u.id = x := by
  intro t
  induction t using PTree.ind with
  | h i nm d sup cs ih =>
    intro x u h
    rw [findNode] at h
    by_cases hix : i = x
    · rw [if_pos hix] at h
      cases h
      rw [id_node, hix]
    · rw [if_neg hix] at h
      obtain ⟨c, hc, h'⟩ := findNodeL_exists cs x u h
      exact ih c hc x u h'

theorem findNodeL_isSome : ∀ (cs : List PTree) (x : Nat) (c : PTree),
    c ∈ cs → (∃ u, findNode x c = some u) → ∃ u, findNodeL x cs = some u := by
  intro cs
  induction cs with
  | nil => intro x c hc; cases hc
  | cons c0 cs' ih =>
    intro x c hc hex
    rw [findNodeL]
    rcases List.mem_cons.mp hc with rfl | hc'
    · obtain ⟨u, hu⟩ := hex
      rw [hu]
      exact ⟨u, rfl⟩
    · cases h0 : findNode x c0 with
      | some r => exact ⟨r, rfl⟩
      | none => exact ih x c hc' hex

theorem findNode_exists_of_mem : ∀ (t : PTree) (x : Nat),
    x ∈ allIds t → ∃ u, findNode x t = some u := by
  intro t
  induction t using PTree.ind with
  | h i nm d sup cs ih =>
    intro x hx
    rw [findNode]
    by_cases hix : i = x
    · rw [if_pos hix]
      exact ⟨_, rfl⟩
    · rw [if_neg hix]
      rw [allIds, List.mem_cons] at hx
      rcases hx with rfl | hx'
      · exact absurd rfl hix
      · obtain ⟨c, hc, hxc⟩ := mem_allIdsL_elim cs x hx'
        exact findNodeL_isSome cs x c hc (ih c hc x hxc)

theorem findNode_eq_of_mem (t : PTree) (hWF : WF t) (u : PTree)
    (hu : u ∈ allNodes t) : findNode u.id t = some u := by
  obtain ⟨v, hv⟩ := findNode_exists_of_mem t u.id (id_mem_of_mem_allNodes t u hu)
  have h1 : v ∈ allNodes t := findNode_mem_allNodes t u.id v hv
  have h2 : v.id = u.id := findNode_id t u.id v hv
  rw [wf_inj t hWF u hu v h1 h2.symm, h2]
  exact hv

theorem parentOfL_some_elim : ∀ (cs : List PTree) (x p : Nat),
    parentOfL x cs = some p → ∃ c ∈ cs, parentOf x c = some p := by
  intro cs
  induction cs with
  | nil => intro x p h; rw [parentOfL] at h; cases h
  | cons c cs' ih =>
    intro x p h
    rw [parentOfL] at h
    cases hc : parentOf x c with
    | some q =>
      rw [hc] at h
      cases h
      exact ⟨c, by simp, hc⟩
    | none =>
      rw [hc] at h
      obtain ⟨c', hc', h'⟩ := ih x p h
      exact ⟨c', by simp [hc'], h'⟩

theorem parentOf_some_elim : ∀ (t : PTree) (x p : Nat),
    parentOf x t = some p →
    ∃ u ∈ allNodes t, u.id = p ∧ x ∈ childIds u := by
  intro t
  induction t using PTree.ind with
  | h i nm d sup cs ih =>
    intro x p h
    rw [parentOf] at h
    by_cases hany : cs.any (fun c => c.id == x)
    · rw [if_pos hany] at h
      cases h
      refine ⟨_, self_mem_allNodes _, id_node i nm d sup cs, ?_⟩
      rw [List.any_eq_true] at hany
      obtain ⟨c, hc, hcx⟩ := hany
      rw [childIds, children_node, List.mem_map]
      exact ⟨c, hc, by simpa using hcx⟩
    · rw [if_neg hany] at h
      obtain ⟨c, hc, h'⟩ := parentOfL_some_elim cs x p h
      obtain ⟨u, hu, hup, hux⟩ := ih c hc x p h'
      refine ⟨u, ?_, hup, hux⟩
      rw [allNodes]
      exact List.mem_cons_of_mem _ (mem_allNodesL cs c hc u hu)

theorem parentOfL_none : ∀ (cs : List PTree) (x : Nat),
    parentOfL x cs = none → ∀ c ∈ cs, parentOf x c = none := by
  intro cs
  induction cs with
  | nil => intro x _ c hc; cases hc
  | cons c0 cs' ih =>
    intro x h c hc
    rw [parentOfL] at h
    cases h0 : parentOf x c0 with
    | some q => rw [h0] at h; cases h
    | none =>
      rw [h0] at h
      rcases List.mem_cons.mp hc with rfl | hc'
      · exact h0
      · exact ih x h c hc'

theorem parentOf_none_elim : ∀ (t : PTree) (x : Nat),
    parentOf x t = none → ∀ u ∈ allNodes t, x ∉ childIds u := by
  intro t
  induction t using PTree.ind with
  | h i nm d sup cs ih =>
    intro x h u hu hx
    rw [parentOf] at h
    by_cases hany : cs.any (fun c => c.id == x)
    · rw [if_pos hany] at h
      cases h
    · rw [if_neg hany] at h
      rw [allNodes] at hu
      rcases List.mem_cons.mp hu with rfl | hu'
      · rw [childIds, children_node, List.mem_map] at hx
        obtain ⟨c, hc, hcx⟩ := hx
        rw [List.any_eq_true] at hany
        exact hany ⟨c, hc, by simp [hcx]⟩
      · obtain ⟨c, hc, h'⟩ := mem_allNodesL_elim cs u hu'
        exact ih c hc x (parentOfL_none cs x h c hc) u h' hx

theorem parentOf_eq_some (t : PTree) (hWF : WF t) (w u : PTree)
    (hw : w ∈ allNodes t) (hu : u ∈ w.children) :
    parentOf u.id t = some w.id := by
  cases h : parentOf u.id t with
  | none =>
    exfalso
    refine parentOf_none_elim t u.id h w hw ?_
    rw [childIds, List.mem_map]
    exact ⟨u, hu, rfl⟩
  | some p =>
    obtain ⟨z, hz, hzp, hzx⟩ := parentOf_some_elim t u.id p h
    rw [childIds, List.mem_map] at hzx
    obtain ⟨c2, hc2, hc2id⟩ := hzx
    have hc2t : c2 ∈ allNodes t :=
      allNodes_trans t z c2 hz (children_mem_allNodes z c2 hc2)
    have hut : u ∈ allNodes t :=
      allNodes_trans t w u hw (children_mem_allNodes w u hu)
    have hc2u : c2 = u := wf_inj t hWF c2 hc2t u hut hc2id
    subst hc2u
    rw [unique_parent t hWF z hz w hw c2 hc2 hu] at hzp
    rw [hzp]

/-! ### Root-to-node paths -/

theorem pathNodes_head (t : PTree) (x : Nat) (L : List PTree)
    (h : pathNodes x t = some L) : ∃ L', L = t :: L' := by
  obtain ⟨i, nm, d, sup, cs⟩ := t
  rw [pathNodes] at h
  by_cases hix : i = x
  · rw [if_pos hix] at h
    cases h
    exact ⟨[], rfl⟩
  · rw [if_neg hix] at h
    cases hl : pathNodesL x cs with
    | some l =>
      rw [hl] at h
      cases h
      exact ⟨l, rfl⟩
    | none => rw [hl] at h; cases h

theorem pathNodesL_some_elim : ∀ (cs : List PTree) (x : Nat) (l : List PTree),
    pathNodesL x cs = some l → ∃ c ∈ cs, pathNodes x c = some l := by
  intro cs
  induction cs with
  | nil => intro x l h; rw [pathNodesL] at h; cases h
  | cons c cs' ih =>
    intro x l h
    rw [pathNodesL] at h
    cases hc : pathNodes x c with
    | some r =>
      rw [hc] at h
      cases h
      exact ⟨c, by simp, hc⟩
    | none =>
      rw [hc] at h
      obtain ⟨c', hc', h'⟩ := ih x l h
      exact ⟨c', by simp [hc'], h'⟩

theorem pathNodesL_isSome : ∀ (cs : List PTree) (x : Nat) (c : PTree),
    c ∈ cs → (∃ l, pathNodes x c = some l) →
    ∃ l, pathNodesL x cs = some l := by
  intro cs
  induction cs with
  | nil => intro x c hc; cases hc
  | cons c0 cs' ih =>
    intro x c hc hex
    rw [pathNodesL]
    rcases List.mem_cons.mp hc with rfl | hc'
    · obtain ⟨l, hl⟩ := hex
      rw [hl]
      exact ⟨l, rfl⟩
    · cases h0 : pathNodes x c0 with
      | some r => exact ⟨r, rfl⟩
      | none => exact ih x c hc' hex

theorem pathNodes_exists_of_mem : ∀ (t : PTree) (x : Nat),
    x ∈ allIds t → ∃ L, pathNodes x t = some L := by
  intro t
  induction t using PTree.ind with
  | h i nm d sup cs ih =>
    intro x hx
    rw [pathNodes]
    by_cases hix : i = x
    · rw [if_pos hix]
      exact ⟨_, rfl⟩
    · rw [if_neg hix]
      rw [allIds, List.mem_cons] at hx
      rcases hx with rfl | hx'
      · exact absurd rfl hix
      · obtain ⟨c, hc, hxc⟩ := mem_allIdsL_elim cs x hx'
        obtain ⟨l, hl⟩ := pathNodesL_isSome cs x c hc (ih c hc x hxc)
        rw [hl]
        exact ⟨_, rfl⟩

theorem pathNodes_getLast : ∀ (t : PTree) (x : Nat) (L : List PTree),
    pathNodes x t = some L → ∃ L' u, L = L' ++ [u] ∧ PTree.id u = x := by
  intro t
  induction t using PTree.ind with
  | h i nm d sup cs ih =>
    intro x L h
    rw [pathNodes] at h
    by_cases hix : i = x
    · rw [if_pos hix] at h
      cases h
      exact ⟨[], _, rfl, by rw [id_node, hix]⟩
    · rw [if_neg hix] at h
      cases hl : pathNodesL x cs with
      | some l =>
        rw [hl] at h
        cases h
        obtain ⟨c, hc, h'⟩ := pathNodesL_some_elim cs x l hl
        obtain ⟨l', u, hlu, hux⟩ := ih c hc x l h'
        exact ⟨_ :: l', u, by rw [hlu]; rfl, hux⟩
      | none => rw [hl] at h; cases h

theorem pathNodes_mem_allNodes : ∀ (t : PTree) (x : Nat) (L : List PTree),
    pathNodes x t = some L → ∀ u ∈ L, u ∈ allNodes t := by
  intro t
  induction t using PTree.ind with
  | h i nm d sup cs ih =>
    intro x L h u hu
    rw [pathNodes] at h
    by_cases hix : i = x
    · rw [if_pos hix] at h
      cases h
      rw [List.mem_singleton] at hu
      rw [hu]
      exact self_mem_allNodes _
    · rw [if_neg hix] at h
      cases hl : pathNodesL x cs with
      | some l =>
        rw [hl] at h
        cases h
        rcases List.mem_cons.mp hu with rfl | hu'
        · exact self_mem_allNodes _
        · obtain ⟨c, hc, h'⟩ := pathNodesL_some_elim cs x l hl
          rw [allNodes]
          exact List.mem_cons_of_mem _
            (mem_allNodesL cs c hc u (ih c hc x l h' u hu'))
      | none => rw [hl] at h; cases h

theorem pathNodes_some_mem (t : PTree) (x : Nat) (L : List PTree)
    (h : pathNodes x t = some L) : x ∈ allIds t := by
  obtain ⟨L', u, rfl, hux⟩ := pathNodes_getLast t x L h
  have hu : u ∈ allNodes t :=
    pathNodes_mem_allNodes t x _ h u (by simp)
  rw [← hux]
  exact id_mem_of_mem_allNodes t u hu

theorem pathNodes_suffix : ∀ (t : PTree) (x : Nat) (L : List PTree),
    pathNodes x t = some L → ∀ (L1 : List PTree) (u : PTree) (L2 : List PTree),
      L = L1 ++ u :: L2 → pathNodes x u = some (u :: L2) := by
  intro t
  induction t using PTree.ind with
  | h i nm d sup cs ih =>
    intro x L h L1 u L2 heq
    rw [pathNodes] at h
    by_cases hix : i = x
    · rw [if_pos hix] at h
      cases h
      cases L1 with
      | nil =>
        rw [List.nil_append] at heq
        cases heq
        rw [pathNodes, if_pos hix]
      | cons a L1' =>
        rw [List.cons_append] at heq
        have := congrArg List.length heq
        simp at this
    · rw [if_neg hix] at h
      cases hl : pathNodesL x cs with
      | some l =>
        rw [hl] at h
        cases h
        cases L1 with
        | nil =>
          rw [List.nil_append] at heq
          cases heq
          rw [pathNodes, if_neg hix, hl]
        | cons a L1' =>
          rw [List.cons_append, List.cons.injEq] at heq
          obtain ⟨c, hc, h'⟩ := pathNodesL_some_elim cs x l hl
          exact ih c hc x l h' L1' u L2 heq.2
      | none => rw [hl] at h; cases h

theorem pathNodes_adj (t : PTree) (x : Nat) (L : List PTree)
    (h : pathNodes x t = some L) (L1 : List PTree) (u v : PTree)
    (L2 : List PTree) (heq : L = L1 ++ u :: v :: L2) : v ∈ u.children := by
  have hu : pathNodes x u = some (u :: v :: L2) :=
    pathNodes_suffix t x L h L1 u (v :: L2) heq
  obtain ⟨i, nm, d, sup, cs⟩ := u
  rw [pathNodes] at hu
  by_cases hix : i = x
  · rw [if_pos hix] at hu
    cases hu
  · rw [if_neg hix] at hu
    cases hl : pathNodesL x cs with
    | some l =>
      rw [hl] at hu
      rw [Option.some.injEq, List.cons.injEq] at hu
      obtain ⟨c, hc, h'⟩ := pathNodesL_some_elim cs x l hl
      obtain ⟨l'', hl''⟩ := pathNodes_head c x l h'
      rw [hl''] at hu
      have hcv : c = v := ((List.cons.injEq _ _ _ _).mp hu.2).1
      rw [children_node, ← hcv]
      exact hc
    | none => rw [hl] at hu; cases hu

theorem pathNodes_length_le : ∀ (t : PTree) (x : Nat) (L : List PTree),
    pathNodes x t = some L → L.length ≤ sizeT t := by
  intro t
  induction t using PTree.ind with
  | h i nm d sup cs ih =>
    intro x L h
    rw [pathNodes] at h
    by_cases hix : i = x
    · rw [if_pos hix] at h
      cases h
      rw [sizeT]
      simp
    · rw [if_neg hix] at h
      cases hl : pathNodesL x cs with
      | some l =>
        rw [hl] at h
        cases h
        obtain ⟨c, hc, h'⟩ := pathNodesL_some_elim cs x l hl
        have h1 := ih c hc x l h'
        have h2 := sizeT_le_sizeL cs c hc
        rw [sizeT, List.length_cons]
        omega
      | none => rw [hl] at h; cases h

theorem path_mem : ∀ (t : PTree), WF t → ∀ u ∈ allNodes t, ∀ (x : Nat),
    x ∈ allIds u → ∀ (L : List PTree), pathNodes x t = some L → u ∈ L := by
  intro t
  induction t using PTree.ind with
  | h i nm d sup cs ih =>
    intro hWF u hu x hx L h
    rw [allNodes] at hu
    rcases List.mem_cons.mp hu with rfl | hu'
    · obtain ⟨L', hL'⟩ := pathNodes_head _ x L h
      rw [hL']
      simp
    · obtain ⟨c, hc, hu2⟩ := mem_allNodesL_elim cs u hu'
      have hxc : x ∈ allIds c := by
        rw [mem_allIds_iff] at hx ⊢
        obtain ⟨w, hw, hwx⟩ := hx
        exact ⟨w, allNodes_trans c u w hu2 hw, hwx⟩
      obtain ⟨hnd, hni⟩ := wf_node_elim i nm d sup cs hWF
      have hix : ¬ i = x := by
        rintro rfl
        exact hni (mem_allIdsL_intro cs c hc i hxc)
      rw [pathNodes, if_neg hix] at h
      cases hl : pathNodesL x cs with
      | some l =>
        rw [hl] at h
        cases h
        obtain ⟨c', hc', h'⟩ := pathNodesL_some_elim cs x l hl
        have hxc' : x ∈ allIds c' := pathNodes_some_mem c' x l h'
        have hcc : c = c' := nodup_allIdsL_disjoint cs hnd c hc c' hc' x hxc hxc'
        subst hcc
        exact List.mem_cons_of_mem _
          (ih c hc (nodup_allIdsL_mem cs hnd c hc) u hu2 x hx l h')
      | none => rw [hl] at h; cases h

/-! ### The `get_common_ancestor` climb -/

theorem allIds_subset_of_mem (w u : PTree) (h : u ∈ allNodes w) :
    ∀ z ∈ allIds u, z ∈ allIds w := by
  intro z hz
  rw [mem_allIds_iff] at hz ⊢
  obtain ⟨v, hv, hvz⟩ := hz
  exact ⟨v, allNodes_trans w u v h hv, hvz⟩

theorem all_mem_congr (targets A B : List Nat)
    (h : ∀ z : Nat, z ∈ A ↔ z ∈ B) :
    targets.all (fun tg => decide (tg ∈ A)) =
      targets.all (fun tg => decide (tg ∈ B)) := by
  induction targets with
  | nil => rfl
  | cons a l ih =>
    rw [List.all_cons, List.all_cons, ih, decide_eq_decide.mpr (h a)]

theorem root_no_parent (t : PTree) (hWF : WF t) : parentOf t.id t = none := by
  cases h : parentOf t.id t with
  | none => rfl
  | some p =>
    exfalso
    obtain ⟨z, hz, _, hzx⟩ := parentOf_some_elim t t.id p h
    rw [childIds, List.mem_map] at hzx
    obtain ⟨c, hc, hcid⟩ := hzx
    have hct : c ∈ allNodes t :=
      allNodes_trans t z c hz (children_mem_allNodes z c hc)
    have hceq : c = t := wf_inj t hWF c hct t (self_mem_allNodes t) hcid
    subst hceq
    have hzt : z = c :=
      allNodes_antisymm z c hz (children_mem_allNodes z c hc)
    subst hzt
    exact not_self_mem_children z hc

/-- After one pass of lines 596-599 the `nodes_bellow` set is exactly the
id set of the subtree rooted at `current`, provided it already contained
the subtree of the child the climb came through (and only ids below
`current`). -/
theorem gca_step (t : PTree) (hWF : WF t) (u : PTree) (hu : u ∈ allNodes t)
    (prev : Nat) (bellow : List Nat)
    (hsub : ∀ z ∈ bellow, z ∈ allIds u)
    (hprev : ∀ c ∈ u.children, c.id = prev → ∀ z ∈ allIds c, z ∈ bellow) :
    ∀ z : Nat,
      z ∈ bellow ++ (((childrenOfId t u.id).filter
          (fun s => s.id != prev)).flatMap allIds ++ [u.id]) ↔
        z ∈ allIds u := by
  have hfind : findNode u.id t = some u := findNode_eq_of_mem t hWF u hu
  have hch : childrenOfId t u.id = u.children := by
    rw [childrenOfId, hfind]
  intro z
  constructor
  · intro hz
    rcases List.mem_append.mp hz with hz | hz
    · exact hsub z hz
    rcases List.mem_append.mp hz with hz | hz
    · rw [List.mem_flatMap] at hz
      obtain ⟨s, hs, hzs⟩ := hz
      rw [hch, List.mem_filter] at hs
      exact allIds_subset_of_mem u s
        (children_mem_allNodes u s hs.1) z hzs
    · rw [List.mem_singleton] at hz
      rw [hz]
      exact id_mem_allIds u
  · intro hz
    rw [List.mem_append, List.mem_append]
    obtain ⟨i, nm, d, sup, cs⟩ := u
    rw [allIds, List.mem_cons] at hz
    rcases hz with rfl | hz
    · right; right
      rw [List.mem_singleton, id_node]
    · obtain ⟨c, hc, hzc⟩ := mem_allIdsL_elim cs z hz
      by_cases hcp : PTree.id c = prev
      · left
        refine hprev c ?_ hcp z hzc
        rw [children_node]
        exact hc
      · right; left
        rw [List.mem_flatMap]
        refine ⟨c, ?_, hzc⟩
        rw [hch, children_node, List.mem_filter]
        exact ⟨hc, bne_iff_ne.mpr hcp⟩

/-- If every node of the path strictly below `u` fails the containment
test, then `u`'s id lies below every node containing all targets: the
minimality half of the `get_common_ancestor` result. -/
theorem gca_minimal_at (t : PTree) (hWF : WF t) (targets : List Nat)
    (start : Nat) (hstart : start ∈ targets)
    (pre : List PTree) (u : PTree) (post : List PTree)
    (hpath : pathNodes start t = some (pre ++ u :: post))
    (hpost : ∀ v ∈ post, ¬ (∀ tg ∈ targets, tg ∈ allIds v)) :
    ∀ v ∈ allNodes t, (∀ tg ∈ targets, tg ∈ allIds v) → u.id ∈ allIds v := by
  intro v hv hall
  have hvL : v ∈ pre ++ u :: post :=
    path_mem t hWF v hv start (hall start hstart) _ hpath
  rcases List.mem_append.mp hvL with hvpre | hvrest
  · obtain ⟨p1, p2, hsplit⟩ := List.append_of_mem hvpre
    have hsuffix : pathNodes start v = some (v :: (p2 ++ u :: post)) := by
      refine pathNodes_suffix t start _ hpath p1 v (p2 ++ u :: post) ?_
      rw [hsplit]
      simp
    have humem : u ∈ v :: (p2 ++ u :: post) := by simp
    exact id_mem_of_mem_allNodes v u
      (pathNodes_mem_allNodes v start _ hsuffix u humem)
  · rcases List.mem_cons.mp hvrest with rfl | hvpost
    · exact id_mem_allIds v
    · exact absurd hall (hpost v hvpost)

theorem gcaLoop_zero (t : PTree) (targets : List Nat) (cur : Option Nat)
    (prev : Nat) (bellow : List Nat) :
    gcaLoop t targets 0 cur prev bellow = none := by
  simp [gcaLoop]

theorem gcaLoop_none_cur (t : PTree) (targets : List Nat) (fuel prev : Nat)
    (bellow : List Nat) :
    gcaLoop t targets (fuel + 1) none prev bellow = none := by
  simp [gcaLoop]

theorem gcaLoop_some_step (t : PTree) (targets : List Nat)
    (fuel current prev : Nat) (bellow : List Nat) :
    gcaLoop t targets (fuel + 1) (some current) prev bellow =
      (if targets.all (fun tg => decide (tg ∈ bellow ++
            (((childrenOfId t current).filter
              (fun s => s.id != prev)).flatMap allIds ++ [current]))) = true
       then some current
       else gcaLoop t targets fuel (parentOf current t) current
         (bellow ++ (((childrenOfId t current).filter
           (fun s => s.id != prev)).flatMap allIds ++ [current]))) := by
  simp only [gcaLoop]

/-- When every target id occurs in the tree, the climb loop started at a
node `u` of the path to `start` (with `nodes_bellow` holding exactly the
ids below the previously visited child) returns the first node of the
remaining upward chain containing all targets; that node lies weakly
below every node containing all targets. -/
theorem gcaLoop_found (t : PTree) (hWF : WF t) (targets : List Nat)
    (start : Nat) (hstart : start ∈ targets)
    (hall : ∀ tg ∈ targets, tg ∈ allIds t) :
    ∀ (pre : List PTree) (u : PTree) (post : List PTree) (prev : Nat)
      (bellow : List Nat) (fuel : Nat),
      pathNodes start t = some (pre ++ u :: post) →
      (∀ z ∈ bellow, z ∈ allIds u) →
      (∀ c ∈ u.children, c.id = prev → ∀ z ∈ allIds c, z ∈ bellow) →
      (∀ v ∈ post, ¬ (∀ tg ∈ targets, tg ∈ allIds v)) →
      pre.length + 2 ≤ fuel →
      ∃ c : PTree,
        gcaLoop t targets fuel (some u.id) prev bellow = some c.id ∧
        c ∈ allNodes t ∧
        (∀ tg ∈ targets, tg ∈ allIds c) ∧
        (∀ v ∈ allNodes t, (∀ tg ∈ targets, tg ∈ allIds v) →
          c.id ∈ allIds v) := by
  intro pre
  induction pre using List.reverseRecOn with
  | nil =>
    intro u post prev bellow fuel hpath hsub hprev hpost hfuel
    obtain ⟨f, rfl⟩ : ∃ f, fuel = f + 1 := ⟨fuel - 1, by omega⟩
    have hut : u = t := by
      obtain ⟨L', hL'⟩ := pathNodes_head t start _ hpath
      rw [List.nil_append] at hL'
      exact ((List.cons.injEq u post t L').mp hL').1
    subst hut
    have hiff := gca_step u hWF u (self_mem_allNodes u) prev bellow hsub hprev
    have htrue : targets.all (fun tg => decide (tg ∈ bellow ++
        (((childrenOfId u u.id).filter
          (fun s => s.id != prev)).flatMap allIds ++ [u.id]))) = true := by
      rw [all_mem_congr targets _ _ hiff, List.all_eq_true]
      intro tg htg
      rw [decide_eq_true_eq]
      exact hall tg htg
    refine ⟨u, ?_, self_mem_allNodes u, hall, ?_⟩
    · rw [gcaLoop_some_step, if_pos htrue]
    · exact gca_minimal_at u hWF targets start hstart [] u post hpath hpost
  | append_singleton pre' w ih =>
    intro u post prev bellow fuel hpath hsub hprev hpost hfuel
    obtain ⟨f, rfl⟩ : ∃ f, fuel = f + 1 := ⟨fuel - 1, by omega⟩
    have hpath' : pathNodes start t = some (pre' ++ w :: u :: post) := by
      rw [List.append_assoc, List.singleton_append] at hpath
      exact hpath
    have hu : u ∈ allNodes t :=
      pathNodes_mem_allNodes t start _ hpath' u (by simp)
    have hiff := gca_step t hWF u hu prev bellow hsub hprev
    have hcond := all_mem_congr targets _ _ hiff
    cases hPu : targets.all (fun tg => decide (tg ∈ allIds u)) with
    | true =>
      have htrue : targets.all (fun tg => decide (tg ∈ bellow ++
          (((childrenOfId t u.id).filter
            (fun s => s.id != prev)).flatMap allIds ++ [u.id]))) = true := by
        rw [hcond, hPu]
      have hallu : ∀ tg ∈ targets, tg ∈ allIds u := by
        intro tg htg
        exact of_decide_eq_true (by simpa using List.all_eq_true.mp hPu tg htg)
      refine ⟨u, ?_, hu, hallu, ?_⟩
      · rw [gcaLoop_some_step, if_pos htrue]
      · exact gca_minimal_at t hWF targets start hstart (pre' ++ [w]) u post
          hpath hpost
    | false =>
      have hfalse : ¬ (targets.all (fun tg => decide (tg ∈ bellow ++
          (((childrenOfId t u.id).filter
            (fun s => s.id != prev)).flatMap allIds ++ [u.id]))) = true) := by
        rw [hcond, hPu]
        simp
      have hadj : u ∈ w.children :=
        pathNodes_adj t start _ hpath' pre' w u post rfl
      have hw : w ∈ allNodes t :=
        pathNodes_mem_allNodes t start _ hpath' w (by simp)
      have hpar : parentOf u.id t = some w.id :=
        parentOf_eq_some t hWF w u hw hadj
      have hsub' : ∀ z ∈ bellow ++ (((childrenOfId t u.id).filter
          (fun s => s.id != prev)).flatMap allIds ++ [u.id]), z ∈ allIds w := by
        intro z hz
        exact allIds_subset_of_mem w u (children_mem_allNodes w u hadj) z
          ((hiff z).mp hz)
      have hprev' : ∀ c ∈ w.children, c.id = u.id →
          ∀ z ∈ allIds c, z ∈ bellow ++ (((childrenOfId t u.id).filter
            (fun s => s.id != prev)).flatMap allIds ++ [u.id]) := by
        intro c hc hcid z hz
        have hceq : c = u :=
          wf_inj t hWF c
            (allNodes_trans t w c hw (children_mem_allNodes w c hc))
            u hu hcid
        rw [hceq] at hz
        exact (hiff z).mpr hz
      have hpost' : ∀ v ∈ u :: post, ¬ (∀ tg ∈ targets, tg ∈ allIds v) := by
        intro v hv hallv
        rcases List.mem_cons.mp hv with rfl | hv'
        · have hx : targets.all (fun tg => decide (tg ∈ allIds v)) = true := by
            rw [List.all_eq_true]
            intro tg htg
            exact decide_eq_true (hallv tg htg)
          rw [hPu] at hx
          cases hx
        · exact hpost v hv' hallv
      have hlen : pre'.length + 2 ≤ f := by
        rw [List.length_append, List.length_cons, List.length_nil] at hfuel
        omega
      obtain ⟨c, hcl, hcmem, hcall, hcmin⟩ :=
        ih w (u :: post) u.id _ f hpath' hsub' hprev' hpost' hlen
      refine ⟨c, ?_, hcmem, hcall, hcmin⟩
      rw [gcaLoop_some_step, if_neg hfalse, hpar]
      exact hcl

/-- When some target id is absent from the tree, the climb loop runs off
the root and returns `none`. -/
theorem gcaLoop_missing (t : PTree) (hWF : WF t) (targets : List Nat)
    (start tg0 : Nat) (htg0 : tg0 ∈ targets) (hmiss : tg0 ∉ allIds t) :
    ∀ (pre : List PTree) (u : PTree) (post : List PTree) (prev : Nat)
      (bellow : List Nat) (fuel : Nat),
      pathNodes start t = some (pre ++ u :: post) →
      (∀ z ∈ bellow, z ∈ allIds u) →
      (∀ c ∈ u.children, c.id = prev → ∀ z ∈ allIds c, z ∈ bellow) →
      pre.length + 2 ≤ fuel →
      gcaLoop t targets fuel (some u.id) prev bellow = none := by
  intro pre
  induction pre using List.reverseRecOn with
  | nil =>
    intro u post prev bellow fuel hpath hsub hprev hfuel
    obtain ⟨f, rfl⟩ : ∃ f, fuel = f + 1 := ⟨fuel - 1, by omega⟩
    have hut : u = t := by
      obtain ⟨L', hL'⟩ := pathNodes_head t start _ hpath
      rw [List.nil_append] at hL'
      exact ((List.cons.injEq u post t L').mp hL').1
    subst hut
    have hiff := gca_step u hWF u (self_mem_allNodes u) prev bellow hsub hprev
    have hfalse : ¬ (targets.all (fun tg => decide (tg ∈ bellow ++
        (((childrenOfId u u.id).filter
          (fun s => s.id != prev)).flatMap allIds ++ [u.id]))) = true) := by
      intro h
      exact hmiss ((hiff tg0).mp
        (of_decide_eq_true (by simpa using List.all_eq_true.mp h tg0 htg0)))
    obtain ⟨f', rfl⟩ : ∃ f', f = f' + 1 := ⟨f - 1, by omega⟩
    rw [gcaLoop_some_step, if_neg hfalse, root_no_parent u hWF,
      gcaLoop_none_cur]
  | append_singleton pre' w ih =>
    intro u post prev bellow fuel hpath hsub hprev hfuel
    obtain ⟨f, rfl⟩ : ∃ f, fuel = f + 1 := ⟨fuel - 1, by omega⟩
    have hpath' : pathNodes start t = some (pre' ++ w :: u :: post) := by
      rw [List.append_assoc, List.singleton_append] at hpath
      exact hpath
    have hu : u ∈ allNodes t :=
      pathNodes_mem_allNodes t start _ hpath' u (by simp)
    have hiff := gca_step t hWF u hu prev bellow hsub hprev
    have hfalse : ¬ (targets.all (fun tg => decide (tg ∈ bellow ++
        (((childrenOfId t u.id).filter
          (fun s => s.id != prev)).flatMap allIds ++ [u.id]))) = true) := by
      intro h
      refine hmiss (allIds_subset_of_mem t u hu tg0 ((hiff tg0).mp
        (of_decide_eq_true (by simpa using List.all_eq_true.mp h tg0 htg0))))
    have hadj : u ∈ w.children :=
      pathNodes_adj t start _ hpath' pre' w u post rfl
    have hw : w ∈ allNodes t :=
      pathNodes_mem_allNodes t start _ hpath' w (by simp)
    have hpar : parentOf u.id t = some w.id :=
      parentOf_eq_some t hWF w u hw hadj
    have hsub' : ∀ z ∈ bellow ++ (((childrenOfId t u.id).filter
        (fun s => s.id != prev)).flatMap allIds ++ [u.id]), z ∈ allIds w := by
      intro z hz
      exact allIds_subset_of_mem w u (children_mem_allNodes w u hadj) z
        ((hiff z).mp hz)
    have hprev' : ∀ c ∈ w.children, c.id = u.id →
        ∀ z ∈ allIds c, z ∈ bellow ++ (((childrenOfId t u.id).filter
          (fun s => s.id != prev)).flatMap allIds ++ [u.id]) := by
      intro c hc hcid z hz
      have hceq : c = u :=
        wf_inj t hWF c
          (allNodes_trans t w c hw (children_mem_allNodes w c hc))
          u hu hcid
      rw [hceq] at hz
      exact (hiff z).mpr hz
    have hlen : pre'.length + 2 ≤ f := by
      rw [List.length_append, List.length_cons, List.length_nil] at hfuel
      omega
    have hrec := ih w (u :: post) u.id _ f hpath' hsub' hprev' hlen
    rw [gcaLoop_some_step, if_neg hfalse, hpar]
    exact hrec

/-- Shared setup of the climb's first iteration: the path to `start`, the
start node, and the initial `nodes_bellow` invariants (with
`prev_node = start` the child filter excludes nothing that matters, since
no child of the start node carries the start's own id). -/
theorem gca_start_setup (t : PTree) (hWF : WF t) (start : Nat)
    (hstart : start ∈ allIds t) :
    ∃ (L' : List PTree) (ulast : PTree),
      pathNodes start t = some (L' ++ ulast :: []) ∧
      PTree.id ulast = start ∧ ulast ∈ allNodes t ∧
      subtreeIds t start = allIds ulast ∧
      (∀ c ∈ ulast.children, c.id = start →
        ∀ z ∈ allIds c, z ∈ subtreeIds t start) ∧
      L'.length + 2 ≤ sizeT t + 1 := by
  obtain ⟨L, hL⟩ := pathNodes_exists_of_mem t start hstart
  obtain ⟨L', ulast, rfl, hid⟩ := pathNodes_getLast t start L hL
  have hmemu : ulast ∈ allNodes t :=
    pathNodes_mem_allNodes t start _ hL ulast (by simp)
  have hfind : findNode start t = some ulast := by
    rw [← hid]
    exact findNode_eq_of_mem t hWF ulast hmemu
  have hbellow : subtreeIds t start = allIds ulast := by
    rw [subtreeIds, hfind]
  refine ⟨L', ulast, hL, hid, hmemu, hbellow, ?_, ?_⟩
  · intro c hc hcid z hz
    exfalso
    have hct : c ∈ allNodes t :=
      allNodes_trans t ulast c hmemu (children_mem_allNodes ulast c hc)
    have hceq : c = ulast := wf_inj t hWF c hct ulast hmemu (by rw [hcid, hid])
    exact not_self_mem_children ulast (hceq ▸ hc)
  · have hlen := pathNodes_length_le t start _ hL
    rw [List.length_append, List.length_cons, List.length_nil] at hlen
    omega

/-- The success case of `get_common_ancestor`: all targets present. -/
theorem getCommonAncestor_ok (t : PTree) (hWF : WF t) (targets0 : List Nat)
    (start : Nat) (hlast : (effTargets t targets0).getLast? = some start)
    (hstart : start ∈ allIds t)
    (hall : ∀ tg ∈ effTargets t targets0, tg ∈ allIds t) :
    ∃ c : PTree, getCommonAncestor t targets0 = .ok (some c.id) ∧
      c ∈ allNodes t ∧
      (∀ tg ∈ effTargets t targets0, tg ∈ allIds c) ∧
      (∀ v ∈ allNodes t, (∀ tg ∈ effTargets t targets0, tg ∈ allIds v) →
        c.id ∈ allIds v) := by
  obtain ⟨L', ulast, hpath, hid, hmemu, hbellow, hprev, hfuel⟩ :=
    gca_start_setup t hWF start hstart
  have hstartmem : start ∈ effTargets t targets0 := by
    obtain ⟨hne, heq⟩ := List.mem_getLast?_eq_getLast
      (show start ∈ (effTargets t targets0).getLast? from by
        rw [Option.mem_def]
        exact hlast)
    rw [heq]
    exact List.getLast_mem hne
  have hsub : ∀ z ∈ subtreeIds t start, z ∈ allIds ulast := by
    rw [hbellow]
    exact fun z hz => hz
  have hunfold : getCommonAncestor t targets0 =
      .ok (gcaLoop t (effTargets t targets0) (sizeT t + 1)
        (some start) start (subtreeIds t start)) := by
    rw [getCommonAncestor, hlast]
  obtain ⟨c, hcl, hcmem, hcall, hcmin⟩ :=
    gcaLoop_found t hWF (effTargets t targets0) start hstartmem hall
      L' ulast [] start (subtreeIds t start) (sizeT t + 1)
      hpath hsub hprev (by simp) hfuel
  rw [hid] at hcl
  exact ⟨c, by rw [hunfold, hcl], hcmem, hcall, hcmin⟩

/-! ### The two climbing legs of `get_distance` -/

theorem sizeT_child_lt (A c : PTree) (h : c ∈ A.children) :
    sizeT c < sizeT A := by
  obtain ⟨i, nm, d, sup, cs⟩ := A
  rw [children_node] at h
  have := sizeT_le_sizeL cs c h
  rw [sizeT]
  omega

/-- Along a root-to-node path, every node after `A` is strictly smaller
than `A` (it lies in a proper subtree of `A`). -/
theorem path_tail_size (t : PTree) (x : Nat) (L1 : List PTree) (A : PTree)
    (M : List PTree) (h : pathNodes x t = some (L1 ++ A :: M)) :
    ∀ w ∈ M, sizeT w < sizeT A := by
  intro w hw
  cases M with
  | nil => cases hw
  | cons a1 M' =>
    have hadj : a1 ∈ A.children := pathNodes_adj t x _ h L1 A a1 M' rfl
    have ha1 : sizeT a1 < sizeT A := sizeT_child_lt A a1 hadj
    rcases List.mem_cons.mp hw with rfl | hw'
    · exact ha1
    · have hsuffix : pathNodes x a1 = some (a1 :: M') :=
        pathNodes_suffix t x _ h (L1 ++ [A]) a1 M' (by simp)
      have hmem : w ∈ allNodes a1 :=
        pathNodes_mem_allNodes a1 x _ hsuffix w (List.mem_cons_of_mem _ hw')
      have := sizeT_le_of_mem_allNodes a1 w hmem
      omega

/-- Truncating a root-to-node path at any of its nodes gives that node's
own root-to-node path. -/
theorem pathNodes_prefix : ∀ (t : PTree), WF t → ∀ (x : Nat) (L : List PTree),
    pathNodes x t = some L → ∀ (M1 : List PTree) (u : PTree) (M2 : List PTree),
      L = M1 ++ u :: M2 → pathNodes (PTree.id u) t = some (M1 ++ [u]) := by
  intro t
  induction t using PTree.ind with
  | h i nm d sup cs ih =>
    intro hWF x L h M1 u M2 heq
    rw [pathNodes] at h
    by_cases hix : i = x
    · rw [if_pos hix] at h
      cases h
      cases M1 with
      | nil =>
        rw [List.nil_append] at heq
        have h1 := (List.cons.injEq _ _ _ _).mp heq
        rw [← h1.1, id_node, pathNodes, if_pos rfl]
        simp
      | cons a M1' =>
        rw [List.cons_append] at heq
        have h1 := (List.cons.injEq _ _ _ _).mp heq
        exact absurd h1.2 (by simp)
    · rw [if_neg hix] at h
      cases hl : pathNodesL x cs with
      | none => rw [hl] at h; cases h
      | some l =>
        rw [hl] at h
        cases h
        obtain ⟨c, hc, hcp⟩ := pathNodesL_some_elim cs x l hl
        obtain ⟨hnd, hni⟩ := wf_node_elim i nm d sup cs hWF
        cases M1 with
        | nil =>
          rw [List.nil_append] at heq
          have h1 := (List.cons.injEq _ _ _ _).mp heq
          rw [← h1.1, id_node, pathNodes, if_pos rfl]
          simp
        | cons a M1' =>
          rw [List.cons_append] at heq
          have h1 := (List.cons.injEq _ _ _ _).mp heq
          have hindc := ih c hc (nodup_allIdsL_mem cs hnd c hc) x l hcp
            M1' u M2 h1.2
          have humem : u ∈ allNodes c :=
            pathNodes_mem_allNodes c x l hcp u (by rw [h1.2]; simp)
          have huc : PTree.id u ∈ allIds c := id_mem_of_mem_allNodes c u humem
          have hiu : ¬ i = PTree.id u := fun hh =>
            hni (hh ▸ mem_allIdsL_intro cs c hc _ huc)
          rw [← h1.1, List.cons_append]
          rw [pathNodes, if_neg hiu]
          obtain ⟨l2, hl2⟩ := pathNodesL_isSome cs (PTree.id u) c hc ⟨_, hindc⟩
          obtain ⟨c', hc', hcp'⟩ := pathNodesL_some_elim cs _ l2 hl2
          have hcl2 : PTree.id u ∈ allIds c' := pathNodes_some_mem c' _ l2 hcp'
          have hcc : c' = c := nodup_allIdsL_disjoint cs hnd c' hc' c hc _ hcl2 huc
          subst hcc
          rw [hcp'] at hindc
          have hl2eq : l2 = M1' ++ [u] := (Option.some.injEq _ _).mp hindc
          rw [hl2, hl2eq]

/-- Every nonempty list is its last element appended to a prefix. -/
theorem cons_eq_concat_getLastD {α : Type} (l : List α) (a : α) :
    ∃ l', a :: l = l' ++ [l.getLastD a] := by
  induction l using List.reverseRecOn with
  | nil => exact ⟨[], by simp⟩
  | append_singleton l' w ih =>
    refine ⟨a :: l', ?_⟩
    rw [List.getLastD_concat]
    rfl

theorem getLastD_eq_of_concat {α : Type} (l1 : List α) (a : α)
    (l2 l3 : List α) (b : α) (h : l1 ++ a :: l2 = l3 ++ [b]) :
    l2.getLastD a = b := by
  induction l2 using List.reverseRecOn with
  | nil =>
    have h1 : (l1 ++ [a]).getLast? = some a := List.getLast?_concat _
    rw [show l1 ++ [a] = l3 ++ [b] from h, List.getLast?_concat] at h1
    rw [List.getLastD_nil]
    exact ((Option.some.injEq _ _).mp h1).symm
  | append_singleton l2' w ih =>
    rw [List.getLastD_concat]
    have h1 : ((l1 ++ a :: l2') ++ [w]).getLast? = some w :=
      List.getLast?_concat _
    rw [show (l1 ++ a :: l2') ++ [w] = l3 ++ [b] by
        rw [← h]; simp, List.getLast?_concat] at h1
    exact ((Option.some.injEq _ _).mp h1).symm

theorem climbSum_step (t : PTree) (topo : Bool) (target anc fuel current : Nat) :
    climbSum t topo target anc (fuel + 1) current =
      (if current = anc then .ok 0
       else
        match parentOf current t with
        | none => .error "AttributeError"
        | some p =>
          match climbSum t topo target anc fuel p with
          | .ok rest => .ok ((if topo then
              (if current ≠ target then (1 : ℚ) else 0)
            else distOfId t current) + rest)
          | .error e => .error e) := by
  simp only [climbSum]

/-- Evaluation of one climb of `get_distance`: starting at the last node
of the path `L1 ++ A :: L2` and climbing to `A`, the result is the sum of
the contributions of the nodes strictly below `A` (their `dist`, or in
topology mode one unit unless they carry the target id). -/
theorem climbSum_spec (t : PTree) (hWF : WF t) (topo : Bool) (target : Nat) :
    ∀ (L2 L1 : List PTree) (A : PTree) (x : Nat),
      pathNodes x t = some (L1 ++ A :: L2) →
      ∀ fuel, L2.length + 1 ≤ fuel →
      climbSum t topo target (PTree.id A) fuel (PTree.id (L2.getLastD A)) =
        .ok ((L2.map (fun v => if topo then
          (if PTree.id v ≠ target then (1 : ℚ) else 0) else v.dist)).sum) := by
  intro L2
  induction L2 using List.reverseRecOn with
  | nil =>
    intro L1 A x hpath fuel hfuel
    obtain ⟨f, rfl⟩ : ∃ f, fuel = f + 1 := ⟨fuel - 1, by omega⟩
    rw [List.getLastD_nil, climbSum_step, if_pos rfl]
    simp
  | append_singleton L2' w ih =>
    intro L1 A x hpath fuel hfuel
    obtain ⟨f, rfl⟩ : ∃ f, fuel = f + 1 := ⟨fuel - 1, by omega⟩
    rw [List.getLastD_concat]
    have hwmem : w ∈ allNodes t :=
      pathNodes_mem_allNodes t x _ hpath w (by simp)
    have hAmem : A ∈ allNodes t :=
      pathNodes_mem_allNodes t x _ hpath A (by simp)
    have hsz : sizeT w < sizeT A :=
      path_tail_size t x L1 A (L2' ++ [w]) hpath w (by simp)
    have hne : ¬ (PTree.id w = PTree.id A) := by
      intro hh
      rw [wf_inj t hWF w hwmem A hAmem hh] at hsz
      omega
    obtain ⟨M1', hM⟩ := cons_eq_concat_getLastD L2' A
    have hsplit : L1 ++ A :: (L2' ++ [w]) =
        (L1 ++ M1') ++ ((L2'.getLastD A) :: w :: []) := by
      rw [show A :: (L2' ++ [w]) = (A :: L2') ++ [w] from rfl, hM]
      simp
    have hpath2 := hpath
    rw [hsplit] at hpath2
    have hadj : w ∈ (L2'.getLastD A).children :=
      pathNodes_adj t x _ hpath2 (L1 ++ M1') _ w [] rfl
    have hpmem : (L2'.getLastD A) ∈ allNodes t :=
      pathNodes_mem_allNodes t x _ hpath2 _ (by simp)
    have hpar : parentOf (PTree.id w) t = some (PTree.id (L2'.getLastD A)) :=
      parentOf_eq_some t hWF _ w hpmem hadj
    have hpref : pathNodes (PTree.id (L2'.getLastD A)) t =
        some (L1 ++ A :: L2') := by
      have hpp := pathNodes_prefix t hWF x _ hpath2 (L1 ++ M1') _ (w :: []) rfl
      rw [List.append_assoc, ← hM] at hpp
      exact hpp
    have hlen : L2'.length + 1 ≤ f := by
      rw [List.length_append, List.length_cons, List.length_nil] at hfuel
      omega
    have hrec := ih L1 A (PTree.id (L2'.getLastD A)) hpref f hlen
    have hfind : findNode (PTree.id w) t = some w :=
      findNode_eq_of_mem t hWF w hwmem
    have hdist : distOfId t (PTree.id w) = w.dist := by
      rw [distOfId, hfind]
    rw [climbSum_step, if_neg hne, hpar]
    show (match climbSum t topo target (PTree.id A) f
            (PTree.id (L2'.getLastD A)) with
          | .ok rest => Except.ok ((if topo then
              (if PTree.id w ≠ target then (1 : ℚ) else 0)
            else distOfId t (PTree.id w)) + rest)
          | .error e => Except.error e) = _
    rw [hrec]
    show Except.ok ((if topo then
        (if PTree.id w ≠ target then (1 : ℚ) else 0)
      else distOfId t (PTree.id w)) +
        (L2'.map (fun v => if topo then
          (if PTree.id v ≠ target then (1 : ℚ) else 0) else v.dist)).sum) = _
    rw [hdist, List.map_append, List.sum_append]
    simp only [List.map_cons, List.map_nil, List.sum_cons, List.sum_nil,
      Except.ok.injEq]
    ring

theorem mem_allNodes_of_id_mem (t : PTree) (hWF : WF t) (u v : PTree)
    (hu : u ∈ allNodes t) (hv : v ∈ allNodes t)
    (h : PTree.id u ∈ allIds v) : u ∈ allNodes v := by
  rw [mem_allIds_iff] at h
  obtain ⟨w, hw, hwid⟩ := h
  have hwt : w ∈ allNodes t := allNodes_trans t v w hv hw
  rw [← wf_inj t hWF w hwt u hu hwid]
  exact hw

theorem id_antisymm (t : PTree) (hWF : WF t) (u v : PTree)
    (hu : u ∈ allNodes t) (hv : v ∈ allNodes t)
    (h1 : PTree.id u ∈ allIds v) (h2 : PTree.id v ∈ allIds u) : u = v :=
  allNodes_antisymm u v (mem_allNodes_of_id_mem t hWF u v hu hv h1)
    (mem_allNodes_of_id_mem t hWF v u hv hu h2)

theorem sum_map_ones (l : List PTree) (f : PTree → ℚ)
    (h : ∀ v ∈ l, f v = 1) : (l.map f).sum = l.length := by
  induction l with
  | nil => simp
  | cons a l' ih =>
    rw [List.map_cons, List.sum_cons, h a (by simp),
      ih (fun v hv => h v (by simp [hv])), List.length_cons]
    push_cast
    ring

theorem getDistance_eval (t : PTree) (selfId targetId : Nat) (topo : Bool)
    (c : Nat) (dS dT : ℚ)
    (hgca : getCommonAncestor t [targetId, selfId] = .ok (some c))
    (hS : climbSum t topo targetId c (sizeT t) selfId = .ok dS)
    (hT : climbSum t topo targetId c (sizeT t) targetId = .ok dT) :
    getDistance t selfId targetId topo = .ok (dS + dT) := by
  rw [getDistance, hgca]
  show (match climbSum t topo targetId c (sizeT t) selfId with
        | .error e => Except.error e
        | .ok d1 =>
          match climbSum t topo targetId c (sizeT t) targetId with
          | .error e => Except.error e
          | .ok d2 => Except.ok (d1 + d2)) = _
  rw [hS]
  show (match climbSum t topo targetId c (sizeT t) targetId with
        | .error e => Except.error e
        | .ok d2 => Except.ok (dS + d2)) = _
  rw [hT]

/-- `x` is a strict ancestor of `y`: distinct ids with `y` inside the
subtree rooted at the node with id `x`. -/
def isAncestorOf (t : PTree) (x y : Nat) : Prop :=
  x ≠ y ∧ ∃ u, findNode x t = some u ∧ y ∈ allIds u

/-- One `get_distance` leg bundled: for an endpoint `a` lying below the
ancestor node `c1`, the strict path `P2` from `c1` down to `a` determines
every climb of `a` to `c1`, its members all contain `a`, and sizes
strictly decrease along it. -/
theorem leg_setup (t : PTree) (hWF : WF t) (c1 : PTree)
    (hc1mem : c1 ∈ allNodes t) (a : Nat) (ha : a ∈ allIds t)
    (hac1 : a ∈ allIds c1) :
    ∃ (P2 : List PTree) (ua : PTree),
      PTree.id ua = a ∧ P2.getLastD c1 = ua ∧ ua ∈ allNodes t ∧
      (∀ (topo : Bool) (target : Nat),
        climbSum t topo target (PTree.id c1) (sizeT t) a =
          .ok ((P2.map (fun v => if topo then
            (if PTree.id v ≠ target then (1 : ℚ) else 0) else v.dist)).sum)) ∧
      (∀ v ∈ P2, v ∈ allNodes t ∧ a ∈ allIds v) ∧
      (∀ (Q1 : List PTree) (v : PTree) (Q2 : List PTree),
        P2 = Q1 ++ v :: Q2 → ∀ w ∈ Q2, sizeT w < sizeT v) := by
  obtain ⟨La, hLa⟩ := pathNodes_exists_of_mem t a ha
  have hc1La : c1 ∈ La := path_mem t hWF c1 hc1mem a hac1 La hLa
  obtain ⟨P1, P2, rfl⟩ := List.append_of_mem hc1La
  obtain ⟨L', ua, hconc, hid⟩ := pathNodes_getLast t a _ hLa
  have hlast : P2.getLastD c1 = ua := getLastD_eq_of_concat P1 c1 P2 L' ua hconc
  have hua_mem : ua ∈ allNodes t :=
    pathNodes_mem_allNodes t a _ hLa ua (by rw [hconc]; simp)
  have hfuel : P2.length + 1 ≤ sizeT t := by
    have := pathNodes_length_le t a _ hLa
    rw [List.length_append, List.length_cons] at this
    omega
  refine ⟨P2, ua, hid, hlast, hua_mem, ?_, ?_, ?_⟩
  · intro topo target
    have hcs := climbSum_spec t hWF topo target P2 P1 c1 a hLa (sizeT t) hfuel
    rw [hlast, hid] at hcs
    exact hcs
  · intro v hv
    refine ⟨pathNodes_mem_allNodes t a _ hLa v (by simp [hv]), ?_⟩
    obtain ⟨Q1, Q2, hQ⟩ := List.append_of_mem hv
    have hsuf : pathNodes a v = some (v :: Q2) := by
      refine pathNodes_suffix t a _ hLa (P1 ++ c1 :: Q1) v Q2 ?_
      rw [hQ]
      simp
    exact pathNodes_some_mem v a _ hsuf
  · intro Q1 v Q2 hQ w hw
    refine path_tail_size t a (P1 ++ c1 :: Q1) v Q2 ?_ w hw
    have hre : P1 ++ c1 :: P2 = (P1 ++ c1 :: Q1) ++ v :: Q2 := by
      rw [hQ]
      simp
    rw [← hre]
    exact hLa

end PTree

/-- C5: on a well-formed tree, `get_distance` between two contained nodes
is symmetric for branch lengths (`topology_only=False`); with
`topology_only=True` it is symmetric whenever neither endpoint is an
ancestor of the other — the asymmetric `current != target` exclusion then
removes exactly one node from the target's leg either way.  (For
ancestor pairs topology counting is not symmetric:
`c5_topology_distance_asymmetric`.) -/
theorem c5_get_distance_symmetry (t : PTree) (a b : Nat) (hWF : PTree.WF t)
    (ha : a ∈ PTree.allIds t) (hb : b ∈ PTree.allIds t) :
    PTree.getDistance t a b false = PTree.getDistance t b a false ∧
    (¬ PTree.isAncestorOf t a b → ¬ PTree.isAncestorOf t b a →
      PTree.getDistance t a b true = PTree.getDistance t b a true) := by
  by_cases hab : a = b
  · subst hab
    exact ⟨rfl, fun _ _ => rfl⟩
  have hall1 : ∀ tg ∈ PTree.effTargets t [b, a], tg ∈ PTree.allIds t := by
    intro tg htg
    have h2 : tg = b ∨ tg = a := by simpa [PTree.effTargets] using htg
    rcases h2 with rfl | rfl
    · exact hb
    · exact ha
  have hall2 : ∀ tg ∈ PTree.effTargets t [a, b], tg ∈ PTree.allIds t := by
    intro tg htg
    have h2 : tg = a ∨ tg = b := by simpa [PTree.effTargets] using htg
    rcases h2 with rfl | rfl
    · exact ha
    · exact hb
  obtain ⟨c1, hgca1, hc1mem, hc1all, hc1min⟩ :=
    PTree.getCommonAncestor_ok t hWF [b, a] a (by rfl) ha hall1
  obtain ⟨c2, hgca2, hc2mem, hc2all, hc2min⟩ :=
    PTree.getCommonAncestor_ok t hWF [a, b] b (by rfl) hb hall2
  have hac1 : a ∈ PTree.allIds c1 := hc1all a (by simp [PTree.effTargets])
  have hbc1 : b ∈ PTree.allIds c1 := hc1all b (by simp [PTree.effTargets])
  have hc2cov : ∀ tg ∈ PTree.effTargets t [b, a], tg ∈ PTree.allIds c2 := by
    intro tg htg
    have h2 : tg = b ∨ tg = a := by simpa [PTree.effTargets] using htg
    rcases h2 with rfl | rfl
    · exact hc2all tg (by simp [PTree.effTargets])
    · exact hc2all tg (by simp [PTree.effTargets])
  have hc1cov : ∀ tg ∈ PTree.effTargets t [a, b], tg ∈ PTree.allIds c1 := by
    intro tg htg
    have h2 : tg = a ∨ tg = b := by simpa [PTree.effTargets] using htg
    rcases h2 with rfl | rfl
    · exact hc1all tg (by simp [PTree.effTargets])
    · exact hc1all tg (by simp [PTree.effTargets])
  have h12 : PTree.id c1 ∈ PTree.allIds c2 := hc1min c2 hc2mem hc2cov
  have h21 : PTree.id c2 ∈ PTree.allIds c1 := hc2min c1 hc1mem hc1cov
  have hc12 : c1 = c2 := PTree.id_antisymm t hWF c1 c2 hc1mem hc2mem h12 h21
  subst hc12
  obtain ⟨P2a, ua, hida, hlasta, huamem, hclimbA, hmemA, hstrictA⟩ :=
    PTree.leg_setup t hWF c1 hc1mem a ha hac1
  obtain ⟨P2b, ub, hidb, hlastb, hubmem, hclimbB, hmemB, hstrictB⟩ :=
    PTree.leg_setup t hWF c1 hc1mem b hb hbc1
  constructor
  · -- branch lengths: both orders sum the same two legs
    have hfun : ∀ target : Nat, (fun v : PTree => if (false : Bool) then
        (if PTree.id v ≠ target then (1 : ℚ) else 0) else v.dist) =
          (fun v : PTree => v.dist) := by
      intro target
      funext v
      simp
    have hA : ∀ target : Nat, PTree.climbSum t false target (PTree.id c1)
        (PTree.sizeT t) a = .ok ((P2a.map (fun v => v.dist)).sum) := by
      intro target
      have h0 := hclimbA false target
      rw [hfun target] at h0
      exact h0
    have hB : ∀ target : Nat, PTree.climbSum t false target (PTree.id c1)
        (PTree.sizeT t) b = .ok ((P2b.map (fun v => v.dist)).sum) := by
      intro target
      have h0 := hclimbB false target
      rw [hfun target] at h0
      exact h0
    have e1 := PTree.getDistance_eval t a b false (PTree.id c1) _ _
      hgca1 (hA b) (hB b)
    have e2 := PTree.getDistance_eval t b a false (PTree.id c1) _ _
      hgca2 (hB a) (hA a)
    rw [e1, e2, add_comm]
  · intro hnab hnba
    have hca : PTree.id c1 ≠ a := by
      intro hh
      refine hnab ⟨hab, c1, ?_, hbc1⟩
      rw [← hh]
      exact PTree.findNode_eq_of_mem t hWF c1 hc1mem
    have hcb : PTree.id c1 ≠ b := by
      intro hh
      refine hnba ⟨fun h => hab h.symm, c1, ?_, hac1⟩
      rw [← hh]
      exact PTree.findNode_eq_of_mem t hWF c1 hc1mem
    have hP2a_ne : P2a ≠ [] := by
      intro h
      rw [h, List.getLastD_nil] at hlasta
      exact hca (by rw [hlasta]; exact hida)
    have hP2b_ne : P2b ≠ [] := by
      intro h
      rw [h, List.getLastD_nil] at hlastb
      exact hcb (by rw [hlastb]; exact hidb)
    obtain ⟨P2a', wa, hP2a_eq⟩ : ∃ l' w, P2a = l' ++ [w] := by
      rcases List.eq_nil_or_concat P2a with h | ⟨L, w, h⟩
      · exact absurd h hP2a_ne
      · exact ⟨L, w, by rw [h, List.concat_eq_append]⟩
    obtain ⟨P2b', wb, hP2b_eq⟩ : ∃ l' w, P2b = l' ++ [w] := by
      rcases List.eq_nil_or_concat P2b with h | ⟨L, w, h⟩
      · exact absurd h hP2b_ne
      · exact ⟨L, w, by rw [h, List.concat_eq_append]⟩
    have hwa : wa = ua := by
      rw [hP2a_eq, List.getLastD_concat] at hlasta
      exact hlasta
    have hwb : wb = ub := by
      rw [hP2b_eq, List.getLastD_concat] at hlastb
      exact hlastb
    have hA_ne_b : ∀ v ∈ P2a, PTree.id v ≠ b := by
      intro v hv hh
      obtain ⟨hvmem, havmem⟩ := hmemA v hv
      refine hnba ⟨fun h => hab h.symm, v, ?_, havmem⟩
      rw [← hh]
      exact PTree.findNode_eq_of_mem t hWF v hvmem
    have hB_ne_a : ∀ v ∈ P2b, PTree.id v ≠ a := by
      intro v hv hh
      obtain ⟨hvmem, hbvmem⟩ := hmemB v hv
      refine hnab ⟨hab, v, ?_, hbvmem⟩
      rw [← hh]
      exact PTree.findNode_eq_of_mem t hWF v hvmem
    have hB'_ne_b : ∀ v ∈ P2b', PTree.id v ≠ b := by
      intro v hv hh
      obtain ⟨hvmem, _⟩ := hmemB v (by rw [hP2b_eq]; simp [hv])
      have hveq : v = ub :=
        PTree.wf_inj t hWF v hvmem ub hubmem (by rw [hh, hidb])
      obtain ⟨Q1, Q2, hQ⟩ := List.append_of_mem hv
      have hlt := hstrictB Q1 v (Q2 ++ [wb])
        (by rw [hP2b_eq, hQ]; simp) wb (by simp)
      rw [hveq, hwb] at hlt
      omega
    have hA'_ne_a : ∀ v ∈ P2a', PTree.id v ≠ a := by
      intro v hv hh
      obtain ⟨hvmem, _⟩ := hmemA v (by rw [hP2a_eq]; simp [hv])
      have hveq : v = ua :=
        PTree.wf_inj t hWF v hvmem ua huamem (by rw [hh, hida])
      obtain ⟨Q1, Q2, hQ⟩ := List.append_of_mem hv
      have hlt := hstrictA Q1 v (Q2 ++ [wa])
        (by rw [hP2a_eq, hQ]; simp) wa (by simp)
      rw [hveq, hwa] at hlt
      omega
    have hfun1 : ∀ target : Nat, (fun v : PTree => if (true : Bool) then
        (if PTree.id v ≠ target then (1 : ℚ) else 0) else v.dist) =
          (fun v : PTree => if PTree.id v ≠ target then (1 : ℚ) else 0) := by
      intro target
      funext v
      simp
    have hA_t : ∀ target : Nat, PTree.climbSum t true target (PTree.id c1)
        (PTree.sizeT t) a =
        .ok ((P2a.map (fun v => if PTree.id v ≠ target then (1 : ℚ)
          else 0)).sum) := by
      intro target
      have h0 := hclimbA true target
      rw [hfun1 target] at h0
      exact h0
    have hB_t : ∀ target : Nat, PTree.climbSum t true target (PTree.id c1)
        (PTree.sizeT t) b =
        .ok ((P2b.map (fun v => if PTree.id v ≠ target then (1 : ℚ)
          else 0)).sum) := by
      intro target
      have h0 := hclimbB true target
      rw [hfun1 target] at h0
      exact h0
    have hSa_b : (P2a.map (fun v => if PTree.id v ≠ b then (1 : ℚ)
        else 0)).sum = P2a.length :=
      PTree.sum_map_ones P2a _ (fun v hv => if_pos (hA_ne_b v hv))
    have hSb_a : (P2b.map (fun v => if PTree.id v ≠ a then (1 : ℚ)
        else 0)).sum = P2b.length :=
      PTree.sum_map_ones P2b _ (fun v hv => if_pos (hB_ne_a v hv))
    have hSb_b : (P2b.map (fun v => if PTree.id v ≠ b then (1 : ℚ)
        else 0)).sum = P2b'.length := by
      rw [hP2b_eq, List.map_append, List.sum_append,
        PTree.sum_map_ones P2b' _ (fun v hv => if_pos (hB'_ne_b v hv))]
      simp only [List.map_cons, List.map_nil, List.sum_cons, List.sum_nil]
      rw [if_neg (show ¬ (PTree.id wb ≠ b) from by
        rw [hwb, hidb]; exact fun hh => hh rfl)]
      ring
    have hSa_a : (P2a.map (fun v => if PTree.id v ≠ a then (1 : ℚ)
        else 0)).sum = P2a'.length := by
      rw [hP2a_eq, List.map_append, List.sum_append,
        PTree.sum_map_ones P2a' _ (fun v hv => if_pos (hA'_ne_a v hv))]
      simp only [List.map_cons, List.map_nil, List.sum_cons, List.sum_nil]
      rw [if_neg (show ¬ (PTree.id wa ≠ a) from by
        rw [hwa, hida]; exact fun hh => hh rfl)]
      ring
    have hSa' : PTree.climbSum t true b (PTree.id c1) (PTree.sizeT t) a =
        .ok ((P2a.length : ℚ)) := by
      rw [hA_t b, hSa_b]
    have hSb' : PTree.climbSum t true b (PTree.id c1) (PTree.sizeT t) b =
        .ok ((P2b'.length : ℚ)) := by
      rw [hB_t b, hSb_b]
    have hSb2' : PTree.climbSum t true a (PTree.id c1) (PTree.sizeT t) b =
        .ok ((P2b.length : ℚ)) := by
      rw [hB_t a, hSb_a]
    have hSa2' : PTree.climbSum t true a (PTree.id c1) (PTree.sizeT t) a =
        .ok ((P2a'.length : ℚ)) := by
      rw [hA_t a, hSa_a]
    have e1 := PTree.getDistance_eval t a b true (PTree.id c1) _ _
      hgca1 hSa' hSb'
    have e2 := PTree.getDistance_eval t b a true (PTree.id c1) _ _
      hgca2 hSb2' hSa2'
    rw [e1, e2]
    have hla : (P2a.length : ℚ) = P2a'.length + 1 := by
      rw [hP2a_eq]
      simp [List.length_append]
    have hlb : (P2b.length : ℚ) = P2b'.length + 1 := by
      rw [hP2b_eq]
      simp [List.length_append]
    rw [hla, hlb]
    ring_nf

theorem c5_witness :
    PTree.getDistance bifTree 1 2 false = PTree.getDistance bifTree 2 1 false ∧
    (¬ PTree.isAncestorOf bifTree 1 2 → ¬ PTree.isAncestorOf bifTree 2 1 →
      PTree.getDistance bifTree 1 2 true = PTree.getDistance bifTree 2 1 true) :=
  c5_get_distance_symmetry bifTree 1 2
    (by simp [PTree.WF, PTree.allIds, PTree.allIdsL, bifTree])
    (by simp [PTree.allIds, PTree.allIdsL, bifTree])
    (by simp [PTree.allIds, PTree.allIdsL, bifTree])

/-- C9: on a well-formed tree, `get_common_ancestor` called on the root
`t` with targets all contained in `t` returns the nearest common
container — a node containing every effective target that lies weakly
below every node containing them all; but when some target is missing
from `t` it does not fail: the climb runs off the root and the function
returns Python's `None` (`.ok none`), a non-node result, contrary to the
claim. -/
theorem c9_common_ancestor_nearest_or_none (t : PTree) (targets0 : List Nat)
    (hWF : PTree.WF t) (start : Nat)
    (hlast : (PTree.effTargets t targets0).getLast? = some start)
    (hstart : start ∈ PTree.allIds t) :
    ((∀ tg ∈ PTree.effTargets t targets0, tg ∈ PTree.allIds t) →
      ∃ c : PTree, PTree.getCommonAncestor t targets0 = .ok (some c.id) ∧
        c ∈ PTree.allNodes t ∧
        (∀ tg ∈ PTree.effTargets t targets0, tg ∈ PTree.allIds c) ∧
        (∀ v ∈ PTree.allNodes t,
          (∀ tg ∈ PTree.effTargets t targets0, tg ∈ PTree.allIds v) →
            c.id ∈ PTree.allIds v)) ∧
    (∀ tg0 ∈ PTree.effTargets t targets0, tg0 ∉ PTree.allIds t →
      PTree.getCommonAncestor t targets0 = .ok none) := by
  obtain ⟨L', ulast, hpath, hid, hmemu, hbellow, hprev, hfuel⟩ :=
    PTree.gca_start_setup t hWF start hstart
  have hsub : ∀ z ∈ PTree.subtreeIds t start, z ∈ PTree.allIds ulast := by
    rw [hbellow]
    exact fun z hz => hz
  have hunfold : PTree.getCommonAncestor t targets0 =
      .ok (PTree.gcaLoop t (PTree.effTargets t targets0) (PTree.sizeT t + 1)
        (some start) start (PTree.subtreeIds t start)) := by
    rw [PTree.getCommonAncestor, hlast]
  constructor
  · intro hall
    exact PTree.getCommonAncestor_ok t hWF targets0 start hlast hstart hall
  · intro tg0 htg0 hmiss
    have hnone := PTree.gcaLoop_missing t hWF (PTree.effTargets t targets0)
      start tg0 htg0 hmiss L' ulast [] start (PTree.subtreeIds t start)
      (PTree.sizeT t + 1) hpath hsub hprev hfuel
    rw [hid] at hnone
    rw [hunfold, hnone]

theorem c9_witness :
    ∃ c : PTree, PTree.getCommonAncestor twoNode [0, 1] = .ok (some c.id) ∧
      c ∈ PTree.allNodes twoNode ∧
      (∀ tg ∈ PTree.effTargets twoNode [0, 1], tg ∈ PTree.allIds c) ∧
      (∀ v ∈ PTree.allNodes twoNode,
        (∀ tg ∈ PTree.effTargets twoNode [0, 1], tg ∈ PTree.allIds v) →
          c.id ∈ PTree.allIds v) :=
  (c9_common_ancestor_nearest_or_none twoNode [0, 1]
      (by simp [PTree.WF, PTree.allIds, PTree.allIdsL, twoNode])
      1 rfl
      (by simp [PTree.allIds, PTree.allIdsL, twoNode])).1
    (by
      intro tg htg
      have heff : PTree.effTargets twoNode [0, 1] = [0, 1] := rfl
      rw [heff] at htg
      have h01 : tg = 0 ∨ tg = 1 := by simpa using htg
      rcases h01 with rfl | rfl <;>
        simp [PTree.allIds, PTree.allIdsL, twoNode])

/-- C5, counterexample: topology-only distance is not symmetric for an
ancestor/descendant pair.  On the two-node chain (root 0 with child 1),
`child.get_distance(root, topology_only=True)` is 1 (the child's leg
counts the child itself, which differs from the target 0), while
`root.get_distance(child, topology_only=True)` is 0 (the only climbed
node is the child, which equals the target and is skipped by the
`current != target` exclusion at line 726). -/
theorem c5_topology_distance_asymmetric :
    PTree.getDistance twoNode 1 0 true = .ok 1 ∧
    PTree.getDistance twoNode 0 1 true = .ok 0 := by
  constructor <;>
    simp [PTree.getDistance, PTree.getCommonAncestor, PTree.effTargets,
      PTree.gcaLoop,
      PTree.climbSum, PTree.parentOf, PTree.parentOfL, PTree.childrenOfId,
      PTree.distOfId, PTree.subtreeIds, PTree.findNode, PTree.findNodeL,
      PTree.allIds, PTree.allIdsL, PTree.sizeT, PTree.sizeL, twoNode,
      PTree.id, PTree.children, PTree.dist]

/-- C9, counterexample: when the calling root does not contain every
target, `get_common_ancestor` does not fail: the climb loop runs off the
root (`current = current.up` becomes `None`) and the function returns
`None`, a non-node result.  Here target 7 is not in the two-node tree. -/
theorem c9_gca_returns_none_not_error :
    PTree.getCommonAncestor twoNode [7, 1] = .ok none ∧
    7 ∉ PTree.allIds twoNode := by
  constructor
  · simp [PTree.getCommonAncestor, PTree.effTargets, PTree.gcaLoop,
      PTree.parentOf,
      PTree.parentOfL, PTree.childrenOfId, PTree.subtreeIds, PTree.findNode,
      PTree.findNodeL, PTree.allIds, PTree.allIdsL, PTree.sizeT, PTree.sizeL,
      twoNode, PTree.id, PTree.children]
  · simp [PTree.allIds, PTree.allIdsL, twoNode]

end EteTree
